import Mathlib

/-!
Verification of the P runtime value model declared in
`Src/PrtDist/PRuntime/Prt/Values/PrtDTValues.h`.

The repository ships only the interface header: every operation below is a
shallow embedding reconstructed from the header's doc comments and the
accompanying specification (construction, typed containers, structural
equality/hashing, deep clone, inhabitation, default values).  Machine
integers (`PRT_UINT32`, `PRT_INT32`) are modelled as `Nat`/`Int`, with hash
arithmetic reduced modulo `2 ^ 32` where 32-bit overflow matters.
-/

/-- Modelled from the spec: the null sentinel `PRT_NULL_VALUE` is
`INT_MAX - 1`, i.e. `2 ^ 31 - 2`. -/
def PRT_NULL_VALUE : Nat := 2147483646

/-- Modelled from the spec: type expressions supplied by the external Type
Oracle (`PRT_TYPE`): primitive kinds, a foreign tag, map/sequence and
(named) tuple shapes, and the wildcard type `any`. -/
inductive PrtType where
  | any
  | bool
  | event
  | forgn (tag : Nat)
  | machine
  | int
  | map (dom cod : PrtType)
  | model
  | nmdTup (fields : List (String × PrtType))
  | seq (elem : PrtType)
  | tuple (elems : List PrtType)

/-- Modelled from the spec: the discriminated value variant
(`struct _PRT_VALUE`): boolean, event id, signed integer, machine handle,
model handle, foreign payload (tag plus opaque pointer, both modelled as
`Nat`), tuple, sequence, and map.  The map is represented by its
insertion-ordered list of key/value nodes; the chained hash buckets of
`_PRT_MAPVALUE` are a lookup accelerator over the same node set and carry
no additional observable state. -/
inductive PrtValue where
  | bool (b : Bool)
  | event (n : Nat)
  | int (n : Int)
  | machine (n : Nat)
  | model (n : Nat)
  | forgn (tag : Nat) (payload : Nat)
  | tuple (elems : List PrtValue)
  | seq (elems : List PrtValue)
  | map (entries : List (PrtValue × PrtValue))

mutual

/-- Modelled from the spec: `PrtIsEqualValue` — structural equality.
Primitives compare by kind and payload; foreign values with matching tags
delegate to the registry's equality (the canonical registry compares the
payload); tuples and sequences compare pairwise in order; maps compare by
equal size plus, for every node of the first map, an equal key of the
second mapping to an equal value (insertion-order independent). -/
def PrtIsEqualValue : PrtValue → PrtValue → Bool
  | .bool a, .bool b => a == b
  | .event a, .event b => a == b
  | .int a, .int b => a == b
  | .machine a, .machine b => a == b
  | .model a, .model b => a == b
  | .forgn t1 p1, .forgn t2 p2 => t1 == t2 && p1 == p2
  | .tuple xs, .tuple ys => eqValueList xs ys
  | .seq xs, .seq ys => eqValueList xs ys
  | .map es, .map fs => es.length == fs.length && mapEntriesSub es fs
  | _, _ => false

/-- Modelled from the spec: pairwise, order-sensitive structural equality of
two lists of values (tuple/sequence elements). -/
def eqValueList : List PrtValue → List PrtValue → Bool
  | [], [] => true
  | x :: xs, y :: ys => PrtIsEqualValue x y && eqValueList xs ys
  | _, _ => false

/-- Modelled from the spec: every node of the first entry list has a
structurally equal key in the second mapping to a structurally equal
value. -/
def mapEntriesSub : List (PrtValue × PrtValue) → List (PrtValue × PrtValue) → Bool
  | [], _ => true
  | (k, v) :: es, fs => mapEntriesFind k v fs && mapEntriesSub es fs

/-- Modelled from the spec: some node of the entry list has key equal to `k`
and value equal to `v`. -/
def mapEntriesFind : PrtValue → PrtValue → List (PrtValue × PrtValue) → Bool
  | _, _, [] => false
  | k, v, (k2, v2) :: fs =>
      (PrtIsEqualValue k k2 && PrtIsEqualValue v v2) || mapEntriesFind k v fs

end

/-- Truncation to an unsigned 32-bit result. -/
def u32 (n : Nat) : Nat := n % 4294967296

/-- Modelled from the spec: a position-dependent 32-bit mixing step for
order-sensitive hashing of tuples and sequences. -/
def hashMix (h x : Nat) : Nat := u32 (h * 31 + x)

mutual

/-- Modelled from the spec: `PrtGetHashCodeValue` — structural hash
consistent with structural equality.  Primitives hash their payload;
foreign values delegate to the registry's hash for their tag (the
canonical registry mixes tag and payload); tuples and sequences fold the
element hashes order-sensitively; maps combine the mixed (key-hash,
value-hash) pairs with an order-insensitive running sum. -/
def PrtGetHashCodeValue : PrtValue → Nat
  | .bool b => if b then 1 else 0
  | .event n => u32 n
  | .int n => (n % (4294967296 : Int)).toNat
  | .machine n => u32 n
  | .model n => u32 n
  | .forgn t p => u32 (t * 31 + p)
  | .tuple xs => hashValueList 7 xs
  | .seq xs => hashValueList 11 xs
  | .map es => u32 (hashValueEntries es)

/-- Modelled from the spec: order-sensitive left fold of element hashes. -/
def hashValueList : Nat → List PrtValue → Nat
  | h, [] => h
  | h, x :: xs => hashValueList (hashMix h (PrtGetHashCodeValue x)) xs

/-- Modelled from the spec: order-insensitive running sum of the mixed
(key-hash, value-hash) pair hashes of a map's nodes. -/
def hashValueEntries : List (PrtValue × PrtValue) → Nat
  | [] => 0
  | (k, v) :: es =>
      hashMix (PrtGetHashCodeValue k) (PrtGetHashCodeValue v) + hashValueEntries es

end

mutual

/-- Modelled from the spec: `PrtCloneValue` — deep copy: a new top-level
value with recursively cloned containers; foreign payloads are cloned
through the registry (the canonical registry copies the payload). -/
def PrtCloneValue : PrtValue → PrtValue
  | .bool b => .bool b
  | .event n => .event n
  | .int n => .int n
  | .machine n => .machine n
  | .model n => .model n
  | .forgn t p => .forgn t p
  | .tuple xs => .tuple (cloneValueList xs)
  | .seq xs => .seq (cloneValueList xs)
  | .map es => .map (cloneValueEntries es)

/-- Modelled from the spec: elementwise deep copy of tuple or sequence
elements. -/
def cloneValueList : List PrtValue → List PrtValue
  | [] => []
  | x :: xs => PrtCloneValue x :: cloneValueList xs

/-- Modelled from the spec: nodewise deep copy of a map's key/value nodes,
preserving insertion order. -/
def cloneValueEntries : List (PrtValue × PrtValue) → List (PrtValue × PrtValue)
  | [] => []
  | (k, v) :: es => (PrtCloneValue k, PrtCloneValue v) :: cloneValueEntries es

end

/-- Modelled from the spec: `k` is structurally unequal (in both argument
orders) to every key of the entry list. -/
def notKeyOf : PrtValue → List (PrtValue × PrtValue) → Bool
  | _, [] => true
  | k, (k2, _) :: es => !PrtIsEqualValue k k2 && !PrtIsEqualValue k2 k && notKeyOf k es

/-- Modelled from the spec: the unique-keys map invariant — the keys of the
entry list are pairwise structurally unequal. -/
def keysDistinct : List (PrtValue × PrtValue) → Bool
  | [] => true
  | (k, _) :: es => notKeyOf k es && keysDistinct es

mutual

/-- Modelled from the spec: well-formedness of a value tree — every map
nested anywhere in the tree satisfies the unique-keys invariant maintained
by the map containersuite. -/
def prtWf : PrtValue → Bool
  | .bool _ => true
  | .event _ => true
  | .int _ => true
  | .machine _ => true
  | .model _ => true
  | .forgn _ _ => true
  | .tuple xs => wfValueList xs
  | .seq xs => wfValueList xs
  | .map es => keysDistinct es && wfValueEntries es

/-- Modelled from the spec: well-formedness of every element of a list. -/
def wfValueList : List PrtValue → Bool
  | [] => true
  | x :: xs => prtWf x && wfValueList xs

/-- Modelled from the spec: well-formedness of every key and value of a
map's entry list. -/
def wfValueEntries : List (PrtValue × PrtValue) → Bool
  | [] => true
  | (k, v) :: es => prtWf k && prtWf v && wfValueEntries es

end

/-- Modelled from the spec: the bucket-chain search of `PrtMapUpdate`: if a
node with key structurally equal to `k` exists, replace that node's value
in place (stored key and insertion-order position unchanged); otherwise
append a new node at the tail of the insertion order. -/
def mapUpdateEntries : List (PrtValue × PrtValue) → PrtValue → PrtValue → List (PrtValue × PrtValue)
  | [], k, v => [(k, v)]
  | (k0, v0) :: es, k, v =>
      if PrtIsEqualValue k k0 then (k0, v) :: es
      else (k0, v0) :: mapUpdateEntries es k v

/-- Modelled from the spec: `PrtMapRemove`'s unlinking: drop the node whose
key is structurally equal to `k` (there is at most one under the
unique-keys invariant); the list is unchanged when no key matches. -/
def mapRemoveEntries : List (PrtValue × PrtValue) → PrtValue → List (PrtValue × PrtValue)
  | [], _ => []
  | (k0, v0) :: es, k =>
      if PrtIsEqualValue k k0 then es
      else (k0, v0) :: mapRemoveEntries es k

/-- Modelled from the spec: the bucket-chain membership test of
`PrtMapExists`. -/
def mapExistsEntries : List (PrtValue × PrtValue) → PrtValue → Bool
  | [], _ => false
  | (k0, _) :: es, k => PrtIsEqualValue k k0 || mapExistsEntries es k

/-- Modelled from the spec: the bucket-chain lookup of `PrtMapGet`,
returning the stored value of the node whose key equals `k`. -/
def mapLookupEntries : List (PrtValue × PrtValue) → PrtValue → Option PrtValue
  | [], _ => none
  | (k0, v0) :: es, k =>
      if PrtIsEqualValue k k0 then some v0 else mapLookupEntries es k

/-- Modelled from the spec: `PrtMapUpdate(map, key, value)` — clones `key`
and `value`, then updates the node set: changes the mapping in place when
an equal key is present, otherwise appends a fresh node at the insertion
tail.  Applying it to a non-map value is a fatal caller contract
violation, modelled as the identity. -/
def PrtMapUpdate : PrtValue → PrtValue → PrtValue → PrtValue
  | .map es, k, v => .map (mapUpdateEntries es (PrtCloneValue k) (PrtCloneValue v))
  | m, _, _ => m

/-- Modelled from the spec: `PrtMapRemove(map, key)` — unlinks and frees the
node of the equal key; the map is unchanged when the key is absent. -/
def PrtMapRemove : PrtValue → PrtValue → PrtValue
  | .map es, k => .map (mapRemoveEntries es k)
  | m, _ => m

/-- Modelled from the spec: `PrtMapExists(map, key)` — true iff the map
contains a key structurally equal to `key`. -/
def PrtMapExists : PrtValue → PrtValue → Bool
  | .map es, k => mapExistsEntries es k
  | _, _ => false

/-- Modelled from the spec: `PrtMapGet(map, key)` — returns a fresh clone of
the value the key maps to; the absent-key contract violation is modelled
by `none`. -/
def PrtMapGet : PrtValue → PrtValue → Option PrtValue
  | .map es, k => (mapLookupEntries es k).map PrtCloneValue
  | _, _ => none

/-- Modelled from the spec: `PrtMapSizeOf(map)` — the number of nodes. -/
def PrtMapSizeOf : PrtValue → Nat
  | .map es => es.length
  | _ => 0

/-- Modelled from the spec: `PrtMapGetKeys(map)` — a fresh sequence value
enumerating clones of the keys in insertion order (oldest first). -/
def PrtMapGetKeys : PrtValue → PrtValue
  | .map es => .seq (es.map (fun p => PrtCloneValue p.1))
  | _ => .seq []

/-- Modelled from the spec: `PrtMapGetValues(map)` — a fresh sequence value
enumerating clones of the mapped values in insertion order. -/
def PrtMapGetValues : PrtValue → PrtValue
  | .map es => .seq (es.map (fun p => PrtCloneValue p.2))
  | _ => .seq []

/-- Modelled from the spec: the shifting insertion of `PrtSeqInsert`: the
new element lands at position `i`, elements at positions `≥ i` shift one
slot right. -/
def seqInsertList : List PrtValue → Nat → PrtValue → List PrtValue
  | l, 0, x => x :: l
  | [], _ + 1, x => [x]
  | y :: l, i + 1, x => y :: seqInsertList l i x

/-- Modelled from the spec: the shifting removal of `PrtSeqRemove`: the
element at position `i` is released, elements at positions `> i` shift one
slot left. -/
def seqRemoveList : List PrtValue → Nat → List PrtValue
  | [], _ => []
  | _ :: l, 0 => l
  | y :: l, i + 1 => y :: seqRemoveList l i

/-- Modelled from the spec: `PrtSeqInsert(seq, index, value)` for
`0 ≤ index ≤ size` — stores a clone of `value` at `index`, shifting later
elements right; a non-sequence argument is a fatal contract violation,
modelled as the identity. -/
def PrtSeqInsert : PrtValue → Nat → PrtValue → PrtValue
  | .seq l, i, x => .seq (seqInsertList l i (PrtCloneValue x))
  | s, _, _ => s

/-- Modelled from the spec: `PrtSeqRemove(seq, index)` for
`0 ≤ index < size` — removes the element at `index`, shifting later
elements left. -/
def PrtSeqRemove : PrtValue → Nat → PrtValue
  | .seq l, i => .seq (seqRemoveList l i)
  | s, _ => s

/-- Modelled from the spec: `PrtSeqUpdate(seq, index, value)` for an index
already holding a value — stores a clone of `value` at `index`. -/
def PrtSeqUpdate : PrtValue → Nat → PrtValue → PrtValue
  | .seq l, i, x => .seq (l.set i (PrtCloneValue x))
  | s, _, _ => s

/-- Modelled from the spec: `PrtSeqGet(seq, index)` — a fresh clone of the
element at `index`; the out-of-range contract violation is modelled by
`none`. -/
def PrtSeqGet : PrtValue → Nat → Option PrtValue
  | .seq l, i => (l.get? i).map PrtCloneValue
  | _, _ => none

/-- Modelled from the spec: `PrtSeqSizeOf(seq)` — the logical length. -/
def PrtSeqSizeOf : PrtValue → Nat
  | .seq l => l.length
  | _ => 0

/-- Modelled from the spec: `PrtIsNullValue(value)` — true iff the kind is
event, machine, or model and the payload is the null sentinel. -/
def PrtIsNullValue : PrtValue → Bool
  | .event n => n == PRT_NULL_VALUE
  | .machine n => n == PRT_NULL_VALUE
  | .model n => n == PRT_NULL_VALUE
  | _ => false

/-- Modelled from the spec: `PrtMkBoolValue`. -/
def PrtMkBoolValue (b : Bool) : PrtValue := .bool b

/-- Modelled from the spec: `PrtMkEventValue`. -/
def PrtMkEventValue (n : Nat) : PrtValue := .event n

/-- Modelled from the spec: `PrtMkIntValue`. -/
def PrtMkIntValue (n : Int) : PrtValue := .int n

/-- Modelled from the spec: `PrtMkMachineValue`. -/
def PrtMkMachineValue (n : Nat) : PrtValue := .machine n

/-- Modelled from the spec: `PrtMkModelValue`. -/
def PrtMkModelValue (n : Nat) : PrtValue := .model n

/-- Modelled from the spec: `PrtMkNullValue` — a machine-id value holding
the null sentinel (the `null : id` of the header's default table). -/
def PrtMkNullValue : PrtValue := .machine PRT_NULL_VALUE

/-- Modelled from the spec: `PrtMkForeignValue(type, value)` — a foreign
value carrying the foreign tag and a registry clone of the payload. -/
def PrtMkForeignValue (tag : Nat) (payload : Nat) : PrtValue := .forgn tag payload

mutual

/-- Modelled from the spec: `PrtMkDefaultValue(type)` — the canonical zero
value: `def(any) = null : id`, `def(bool) = false`,
`def(event) = def(machine) = def(model) = null`, `def(foreign)` a null
payload, `def(int) = 0`, empty map and sequence, and tuples of the
defaults of their field types. -/
def PrtMkDefaultValue : PrtType → PrtValue
  | .any => .machine PRT_NULL_VALUE
  | .bool => .bool false
  | .event => .event PRT_NULL_VALUE
  | .forgn tag => .forgn tag 0
  | .machine => .machine PRT_NULL_VALUE
  | .int => .int 0
  | .map _ _ => .map []
  | .model => .model PRT_NULL_VALUE
  | .nmdTup fields => .tuple (defaultNmdList fields)
  | .seq _ => .seq []
  | .tuple ts => .tuple (defaultValueList ts)

/-- Modelled from the spec: defaults of each type of a tuple shape. -/
def defaultValueList : List PrtType → List PrtValue
  | [] => []
  | t :: ts => PrtMkDefaultValue t :: defaultValueList ts

/-- Modelled from the spec: defaults of each field type of a named tuple
shape. -/
def defaultNmdList : List (String × PrtType) → List PrtValue
  | [] => []
  | f :: fs => PrtMkDefaultValue f.2 :: defaultNmdList fs

end

mutual

/-- Modelled from the spec: `PrtInhabitsType(value, type)` — primitives
match their kind, `any` matches every value, foreign values match exactly
their own tag, tuples need matching arity and slotwise inhabitation,
sequences need every element in the element type, maps need every key in
the domain type and every mapped value in the codomain type. -/
def PrtInhabitsType : PrtValue → PrtType → Bool
  | _, .any => true
  | .bool _, .bool => true
  | .event _, .event => true
  | .int _, .int => true
  | .machine _, .machine => true
  | .model _, .model => true
  | .forgn t _, .forgn t2 => t == t2
  | .tuple vs, .tuple ts => inhabitsList vs ts
  | .tuple vs, .nmdTup fields => inhabitsNmdList vs fields
  | .seq vs, .seq t => inhabitsAll vs t
  | .map es, .map dom cod => inhabitsEntries es dom cod
  | _, _ => false

/-- Modelled from the spec: slotwise inhabitation of tuple elements in the
corresponding field types (arities must agree). -/
def inhabitsList : List PrtValue → List PrtType → Bool
  | [], [] => true
  | v :: vs, t :: ts => PrtInhabitsType v t && inhabitsList vs ts
  | _, _ => false

/-- Modelled from the spec: slotwise inhabitation of named-tuple elements in
the named field types. -/
def inhabitsNmdList : List PrtValue → List (String × PrtType) → Bool
  | [], [] => true
  | v :: vs, f :: fs => PrtInhabitsType v f.2 && inhabitsNmdList vs fs
  | _, _ => false

/-- Modelled from the spec: every sequence element inhabits the element
type. -/
def inhabitsAll : List PrtValue → PrtType → Bool
  | [], _ => true
  | v :: vs, t => PrtInhabitsType v t && inhabitsAll vs t

/-- Modelled from the spec: every key inhabits the domain type and every
mapped value the codomain type. -/
def inhabitsEntries : List (PrtValue × PrtValue) → PrtType → PrtType → Bool
  | [], _, _ => true
  | (k, v) :: es, dom, cod =>
      PrtInhabitsType k dom && PrtInhabitsType v cod && inhabitsEntries es dom cod

end

theorem prtValue_one_le_sizeOf (v : PrtValue) : 1 ≤ sizeOf v := by
  cases v <;> simp <;> omega

/-- A membership-based induction principle for the nested value variant. -/
theorem prtValue_indOn (P : PrtValue → Prop)
    (hbool : ∀ b, P (.bool b))
    (hevent : ∀ n, P (.event n))
    (hint : ∀ n, P (.int n))
    (hmachine : ∀ n, P (.machine n))
    (hmodel : ∀ n, P (.model n))
    (hforgn : ∀ t p, P (.forgn t p))
    (htuple : ∀ xs, (∀ x ∈ xs, P x) → P (.tuple xs))
    (hseq : ∀ xs, (∀ x ∈ xs, P x) → P (.seq xs))
    (hmap : ∀ es, (∀ p ∈ es, P p.1 ∧ P p.2) → P (.map es)) :
    ∀ v, P v := by
  have H : ∀ n v, sizeOf v ≤ n → P v := by
    intro n
    induction n with
    | zero =>
      intro v hv
      exact absurd hv (by have := prtValue_one_le_sizeOf v; omega)
    | succ n ih =>
      intro v hv
      cases v with
      | bool b => exact hbool b
      | event m => exact hevent m
      | int m => exact hint m
      | machine m => exact hmachine m
      | model m => exact hmodel m
      | forgn t p => exact hforgn t p
      | tuple xs =>
        refine htuple xs (fun x hx => ih x ?_)
        have hlt := List.sizeOf_lt_of_mem hx
        simp at hv
        omega
      | seq xs =>
        refine hseq xs (fun x hx => ih x ?_)
        have hlt := List.sizeOf_lt_of_mem hx
        simp at hv
        omega
      | map es =>
        refine hmap es (fun p hp => ?_)
        have hlt := List.sizeOf_lt_of_mem hp
        obtain ⟨k, v⟩ := p
        simp at hlt hv
        exact ⟨ih k (by omega), ih v (by omega)⟩
  exact fun v => H (sizeOf v) v le_rfl

theorem prtType_one_le_sizeOf (t : PrtType) : 1 ≤ sizeOf t := by
  cases t <;> simp <;> omega

/-- A membership-based induction principle for the nested type variant. -/
theorem prtType_indOn (P : PrtType → Prop)
    (hany : P .any)
    (hbool : P .bool)
    (hevent : P .event)
    (hforgn : ∀ tag, P (.forgn tag))
    (hmachine : P .machine)
    (hint : P .int)
    (hmap : ∀ dom cod, P dom → P cod → P (.map dom cod))
    (hmodel : P .model)
    (hnmd : ∀ fields, (∀ f ∈ fields, P f.2) → P (.nmdTup fields))
    (hseq : ∀ t, P t → P (.seq t))
    (htuple : ∀ ts, (∀ t ∈ ts, P t) → P (.tuple ts)) :
    ∀ t, P t := by
  have H : ∀ n t, sizeOf t ≤ n → P t := by
    intro n
    induction n with
    | zero =>
      intro t ht
      exact absurd ht (by have := prtType_one_le_sizeOf t; omega)
    | succ n ih =>
      intro t ht
      cases t with
      | any => exact hany
      | bool => exact hbool
      | event => exact hevent
      | forgn tag => exact hforgn tag
      | machine => exact hmachine
      | int => exact hint
      | map dom cod =>
        simp at ht
        exact hmap dom cod (ih dom (by omega)) (ih cod (by omega))
      | model => exact hmodel
      | nmdTup fields =>
        refine hnmd fields (fun f hf => ?_)
        have hlt := List.sizeOf_lt_of_mem hf
        obtain ⟨nm, ft⟩ := f
        simp at hlt ht
        exact ih ft (by omega)
      | seq t =>
        simp at ht
        exact hseq t (ih t (by omega))
      | tuple ts =>
        refine htuple ts (fun s hs => ih s ?_)
        have hlt := List.sizeOf_lt_of_mem hs
        simp at ht
        omega
  exact fun t => H (sizeOf t) t le_rfl

theorem cloneValueList_eq_self {xs : List PrtValue}
    (h : ∀ x ∈ xs, PrtCloneValue x = x) : cloneValueList xs = xs := by
  induction xs with
  | nil => simp [cloneValueList]
  | cons x xs ih =>
    simp [cloneValueList, h x (by simp)]
    exact ih (fun y hy => h y (by simp [hy]))

theorem cloneValueEntries_eq_self {es : List (PrtValue × PrtValue)}
    (h : ∀ p ∈ es, PrtCloneValue p.1 = p.1 ∧ PrtCloneValue p.2 = p.2) :
    cloneValueEntries es = es := by
  induction es with
  | nil => simp [cloneValueEntries]
  | cons p es ih =>
    obtain ⟨k, v⟩ := p
    have hp := h (k, v) (by simp)
    simp [cloneValueEntries, hp.1, hp.2]
    exact ih (fun q hq => h q (by simp [hq]))

/-- Deep clone is extensionally the identity on the value tree. -/
theorem PrtCloneValue_eq_self : ∀ v, PrtCloneValue v = v := by
  intro v
  induction v using prtValue_indOn with
  | hbool b => simp [PrtCloneValue]
  | hevent n => simp [PrtCloneValue]
  | hint n => simp [PrtCloneValue]
  | hmachine n => simp [PrtCloneValue]
  | hmodel n => simp [PrtCloneValue]
  | hforgn t p => simp [PrtCloneValue]
  | htuple xs ih => simp [PrtCloneValue, cloneValueList_eq_self ih]
  | hseq xs ih => simp [PrtCloneValue, cloneValueList_eq_self ih]
  | hmap es ih => simp [PrtCloneValue, cloneValueEntries_eq_self ih]

theorem eqValueList_refl {xs : List PrtValue}
    (h : ∀ x ∈ xs, PrtIsEqualValue x x = true) : eqValueList xs xs = true := by
  induction xs with
  | nil => simp [eqValueList]
  | cons x xs ih =>
    simp [eqValueList, h x (by simp)]
    exact ih (fun y hy => h y (by simp [hy]))

theorem mapEntriesFind_cons_of_find {k v q} {fs : List (PrtValue × PrtValue)}
    (h : mapEntriesFind k v fs = true) : mapEntriesFind k v (q :: fs) = true := by
  obtain ⟨k2, v2⟩ := q
  simp [mapEntriesFind, h]

theorem mapEntriesSub_cons_right {q} {es fs : List (PrtValue × PrtValue)}
    (h : mapEntriesSub es fs = true) : mapEntriesSub es (q :: fs) = true := by
  induction es with
  | nil => simp [mapEntriesSub]
  | cons p es ih =>
    obtain ⟨k, v⟩ := p
    simp [mapEntriesSub] at h ⊢
    exact ⟨mapEntriesFind_cons_of_find h.1, ih h.2⟩

theorem mapEntriesSub_refl {es : List (PrtValue × PrtValue)}
    (h : ∀ p ∈ es, PrtIsEqualValue p.1 p.1 = true ∧ PrtIsEqualValue p.2 p.2 = true) :
    mapEntriesSub es es = true := by
  induction es with
  | nil => simp [mapEntriesSub]
  | cons p es ih =>
    obtain ⟨k, v⟩ := p
    have hp := h (k, v) (by simp)
    simp [mapEntriesSub, mapEntriesFind, hp.1, hp.2]
    exact mapEntriesSub_cons_right (ih (fun q hq => h q (by simp [hq])))

/-- Structural equality is reflexive. -/
theorem PrtIsEqualValue_refl : ∀ v, PrtIsEqualValue v v = true := by
  intro v
  induction v using prtValue_indOn with
  | hbool b => simp [PrtIsEqualValue]
  | hevent n => simp [PrtIsEqualValue]
  | hint n => simp [PrtIsEqualValue]
  | hmachine n => simp [PrtIsEqualValue]
  | hmodel n => simp [PrtIsEqualValue]
  | hforgn t p => simp [PrtIsEqualValue]
  | htuple xs ih => simp [PrtIsEqualValue, eqValueList_refl ih]
  | hseq xs ih => simp [PrtIsEqualValue, eqValueList_refl ih]
  | hmap es ih => simp [PrtIsEqualValue, mapEntriesSub_refl ih]

/-- C4: for every value `v`, `IsEqualValue(v, CloneValue(v))` returns true —
the deep clone of any value is structurally equal to the original. -/
theorem clone_isEqual (v : PrtValue) :
    PrtIsEqualValue v (PrtCloneValue v) = true := by
  rw [PrtCloneValue_eq_self]
  exact PrtIsEqualValue_refl v

theorem seqRemoveList_seqInsertList {l : List PrtValue} {i : Nat} (x : PrtValue)
    (h : i ≤ l.length) : seqRemoveList (seqInsertList l i x) i = l := by
  induction l generalizing i with
  | nil =>
    cases i with
    | zero => simp [seqInsertList, seqRemoveList]
    | succ i => simp at h
  | cons y l ih =>
    cases i with
    | zero => simp [seqInsertList, seqRemoveList]
    | succ i =>
      simp only [List.length_cons] at h
      have h2 : i ≤ l.length := by omega
      simp [seqInsertList, seqRemoveList, ih h2]

/-- C6: inserting a value at index `i` (`0 ≤ i ≤ n`) into a sequence of size
`n` and then removing index `i` restores the original sequence: same size
and elementwise structurally equal contents. -/
theorem seqInsert_seqRemove_roundtrip (l : List PrtValue) (i : Nat) (x : PrtValue)
    (h : i ≤ PrtSeqSizeOf (.seq l)) :
    PrtSeqRemove (PrtSeqInsert (.seq l) i x) i = .seq l ∧
    PrtIsEqualValue (PrtSeqRemove (PrtSeqInsert (.seq l) i x) i) (.seq l) = true ∧
    PrtSeqSizeOf (PrtSeqRemove (PrtSeqInsert (.seq l) i x) i) = PrtSeqSizeOf (.seq l) := by
  have hr : PrtSeqRemove (PrtSeqInsert (.seq l) i x) i = .seq l := by
    simp [PrtSeqInsert, PrtSeqRemove]
    exact seqRemoveList_seqInsertList _ (by simpa [PrtSeqSizeOf] using h)
  exact ⟨hr, by rw [hr]; exact PrtIsEqualValue_refl _, by rw [hr]⟩

/-- C6 witness at a concrete sequence, index and value. -/
theorem seqInsert_seqRemove_roundtrip_w :
    (1 : Nat) ≤ PrtSeqSizeOf (.seq [.int 5, .int 6]) ∧
    PrtSeqRemove (PrtSeqInsert (.seq [.int 5, .int 6]) 1 (.int 9)) 1 = .seq [.int 5, .int 6] := by
  have h : (1 : Nat) ≤ PrtSeqSizeOf (.seq [.int 5, .int 6]) := by simp [PrtSeqSizeOf]
  exact ⟨h, (seqInsert_seqRemove_roundtrip [.int 5, .int 6] 1 (.int 9) h).1⟩

theorem inhabitsList_default {ts : List PrtType}
    (h : ∀ t ∈ ts, PrtInhabitsType (PrtMkDefaultValue t) t = true) :
    inhabitsList (defaultValueList ts) ts = true := by
  induction ts with
  | nil => simp [defaultValueList, inhabitsList]
  | cons t ts ih =>
    simp [defaultValueList, inhabitsList, h t (by simp)]
    exact ih (fun s hs => h s (by simp [hs]))

theorem inhabitsNmdList_default {fields : List (String × PrtType)}
    (h : ∀ f ∈ fields, PrtInhabitsType (PrtMkDefaultValue f.2) f.2 = true) :
    inhabitsNmdList (defaultNmdList fields) fields = true := by
  induction fields with
  | nil => simp [defaultNmdList, inhabitsNmdList]
  | cons f fs ih =>
    simp [defaultNmdList, inhabitsNmdList, h f (by simp)]
    exact ih (fun g hg => h g (by simp [hg]))

/-- C7: for every constructible type expression `t` — including nested
tuple, sequence, map and `any` types — the synthesized default value
inhabits the type: `InhabitsType(MkDefaultValue(t), t)` holds. -/
theorem mkDefault_inhabits : ∀ t, PrtInhabitsType (PrtMkDefaultValue t) t = true := by
  intro t
  induction t using prtType_indOn with
  | hany => simp [PrtMkDefaultValue, PrtInhabitsType]
  | hbool => simp [PrtMkDefaultValue, PrtInhabitsType]
  | hevent => simp [PrtMkDefaultValue, PrtInhabitsType]
  | hforgn tag => simp [PrtMkDefaultValue, PrtInhabitsType]
  | hmachine => simp [PrtMkDefaultValue, PrtInhabitsType]
  | hint => simp [PrtMkDefaultValue, PrtInhabitsType]
  | hmap dom cod hd hc => simp [PrtMkDefaultValue, PrtInhabitsType, inhabitsEntries]
  | hmodel => simp [PrtMkDefaultValue, PrtInhabitsType]
  | hnmd fields ih =>
    simp [PrtMkDefaultValue, PrtInhabitsType]
    exact inhabitsNmdList_default ih
  | hseq t ht => simp [PrtMkDefaultValue, PrtInhabitsType, inhabitsAll]
  | htuple ts ih =>
    simp [PrtMkDefaultValue, PrtInhabitsType]
    exact inhabitsList_default ih

/-- C8: `IsNullValue(v)` is true exactly when `v` is an event, machine, or
model value whose payload is the reserved sentinel `PRT_NULL_VALUE`
(`INT_MAX - 1 = 2147483646`); every other kind yields false.  The value
built by `PrtMkNullValue` is null. -/
theorem isNullValue_characterization (v : PrtValue) :
    (PrtIsNullValue v = true ↔
      v = .event PRT_NULL_VALUE ∨ v = .machine PRT_NULL_VALUE ∨ v = .model PRT_NULL_VALUE) ∧
    PrtIsNullValue PrtMkNullValue = true ∧ PRT_NULL_VALUE = 2147483646 := by
  refine ⟨?_, by simp [PrtIsNullValue, PrtMkNullValue], rfl⟩
  cases v <;> simp [PrtIsNullValue]

theorem mapExistsEntries_update (es : List (PrtValue × PrtValue)) (k v : PrtValue) :
    mapExistsEntries (mapUpdateEntries es k v) k = true := by
  induction es with
  | nil => simp [mapUpdateEntries, mapExistsEntries, PrtIsEqualValue_refl]
  | cons p es ih =>
    obtain ⟨k0, v0⟩ := p
    cases hx : PrtIsEqualValue k k0 with
    | true => simp [mapUpdateEntries, hx, mapExistsEntries]
    | false => simp [mapUpdateEntries, hx, mapExistsEntries, ih]

theorem mapLookupEntries_update (es : List (PrtValue × PrtValue)) (k v : PrtValue) :
    mapLookupEntries (mapUpdateEntries es k v) k = some v := by
  induction es with
  | nil => simp [mapUpdateEntries, mapLookupEntries, PrtIsEqualValue_refl]
  | cons p es ih =>
    obtain ⟨k0, v0⟩ := p
    cases hx : PrtIsEqualValue k k0 with
    | true => simp [mapUpdateEntries, hx, mapLookupEntries]
    | false => simp [mapUpdateEntries, hx, mapLookupEntries, ih]

theorem mapRemoveEntries_length_of_exists (es : List (PrtValue × PrtValue)) (k : PrtValue)
    (h : mapExistsEntries es k = true) :
    (mapRemoveEntries es k).length + 1 = es.length := by
  induction es with
  | nil => simp [mapExistsEntries] at h
  | cons p es ih =>
    obtain ⟨k0, v0⟩ := p
    cases hx : PrtIsEqualValue k k0 with
    | true => simp [mapRemoveEntries, hx]
    | false =>
      simp [mapExistsEntries, hx] at h
      simp [mapRemoveEntries, hx, ih h]

theorem mapRemoveEntries_of_not_exists (es : List (PrtValue × PrtValue)) (k : PrtValue)
    (h : mapExistsEntries es k = false) :
    mapRemoveEntries es k = es := by
  induction es with
  | nil => simp [mapRemoveEntries]
  | cons p es ih =>
    obtain ⟨k0, v0⟩ := p
    simp [mapExistsEntries] at h
    simp [mapRemoveEntries, h.1, ih h.2]

theorem sizeOf_pair_lt_of_mem {p : PrtValue × PrtValue} {es : List (PrtValue × PrtValue)}
    (h : p ∈ es) : sizeOf p.1 < sizeOf es ∧ sizeOf p.2 < sizeOf es := by
  have hlt := List.sizeOf_lt_of_mem h
  obtain ⟨k, v⟩ := p
  simp at hlt ⊢
  omega

theorem mapEntriesFind_iff {k v : PrtValue} {fs : List (PrtValue × PrtValue)} :
    mapEntriesFind k v fs = true ↔
      ∃ q ∈ fs, PrtIsEqualValue k q.1 = true ∧ PrtIsEqualValue v q.2 = true := by
  induction fs with
  | nil => simp [mapEntriesFind]
  | cons q fs ih =>
    obtain ⟨k2, v2⟩ := q
    simp [mapEntriesFind, ih]

theorem mapEntriesSub_iff {es fs : List (PrtValue × PrtValue)} :
    mapEntriesSub es fs = true ↔ ∀ p ∈ es, mapEntriesFind p.1 p.2 fs = true := by
  induction es with
  | nil => simp [mapEntriesSub]
  | cons p es ih =>
    obtain ⟨k, v⟩ := p
    simp [mapEntriesSub, ih]

theorem mapExistsEntries_iff {es : List (PrtValue × PrtValue)} {k : PrtValue} :
    mapExistsEntries es k = true ↔ ∃ p ∈ es, PrtIsEqualValue k p.1 = true := by
  induction es with
  | nil => simp [mapExistsEntries]
  | cons p es ih =>
    obtain ⟨k0, v0⟩ := p
    simp [mapExistsEntries, ih]

theorem notKeyOf_iff {k : PrtValue} {es : List (PrtValue × PrtValue)} :
    notKeyOf k es = true ↔
      ∀ q ∈ es, PrtIsEqualValue k q.1 = false ∧ PrtIsEqualValue q.1 k = false := by
  induction es with
  | nil => simp [notKeyOf]
  | cons q es ih =>
    obtain ⟨k2, v2⟩ := q
    simp [notKeyOf, ih]

theorem keysDistinct_pairwise {es : List (PrtValue × PrtValue)}
    (h : keysDistinct es = true) :
    es.Pairwise (fun p q => PrtIsEqualValue p.1 q.1 = false ∧ PrtIsEqualValue q.1 p.1 = false) := by
  induction es with
  | nil => exact List.Pairwise.nil
  | cons p es ih =>
    obtain ⟨k, v⟩ := p
    simp [keysDistinct] at h
    refine List.Pairwise.cons ?_ (ih h.2)
    intro q hq
    exact (notKeyOf_iff.mp h.1 q hq)

theorem eqValueList_trans {ys : List PrtValue}
    (H : ∀ y ∈ ys, ∀ a c, PrtIsEqualValue a y = true → PrtIsEqualValue y c = true →
      PrtIsEqualValue a c = true) :
    ∀ xs zs, eqValueList xs ys = true → eqValueList ys zs = true →
      eqValueList xs zs = true := by
  induction ys with
  | nil =>
    intro xs zs h1 h2
    cases xs <;> cases zs <;> simp_all [eqValueList]
  | cons y ys ih =>
    intro xs zs h1 h2
    cases xs with
    | nil => simp [eqValueList] at h1
    | cons x xs =>
      cases zs with
      | nil => simp [eqValueList] at h2
      | cons z zs =>
        simp only [eqValueList, Bool.and_eq_true] at h1 h2 ⊢
        exact ⟨H y (by simp) x z h1.1 h2.1,
               ih (fun u hu => H u (by simp [hu])) xs zs h1.2 h2.2⟩

/-- Structural equality is transitive (for arbitrary values). -/
theorem PrtIsEqualValue_trans :
    ∀ b a c, PrtIsEqualValue a b = true → PrtIsEqualValue b c = true →
      PrtIsEqualValue a c = true := by
  have MAIN : ∀ n b, sizeOf b ≤ n → ∀ a c,
      PrtIsEqualValue a b = true → PrtIsEqualValue b c = true →
      PrtIsEqualValue a c = true := by
    intro n
    induction n with
    | zero =>
      intro b hb
      exact absurd hb (by have := prtValue_one_le_sizeOf b; omega)
    | succ n ih =>
      intro b hb a c h1 h2
      cases b with
      | bool x =>
        cases a <;> simp [PrtIsEqualValue] at h1
        cases c <;> simp [PrtIsEqualValue] at h2
        simp [PrtIsEqualValue, h1, h2]
      | event x =>
        cases a <;> simp [PrtIsEqualValue] at h1
        cases c <;> simp [PrtIsEqualValue] at h2
        simp [PrtIsEqualValue, h1, h2]
      | int x =>
        cases a <;> simp [PrtIsEqualValue] at h1
        cases c <;> simp [PrtIsEqualValue] at h2
        simp [PrtIsEqualValue, h1, h2]
      | machine x =>
        cases a <;> simp [PrtIsEqualValue] at h1
        cases c <;> simp [PrtIsEqualValue] at h2
        simp [PrtIsEqualValue, h1, h2]
      | model x =>
        cases a <;> simp [PrtIsEqualValue] at h1
        cases c <;> simp [PrtIsEqualValue] at h2
        simp [PrtIsEqualValue, h1, h2]
      | forgn t p =>
        cases a <;> simp [PrtIsEqualValue] at h1
        cases c <;> simp [PrtIsEqualValue] at h2
        simp [PrtIsEqualValue, h1.1, h1.2, h2.1, h2.2]
      | tuple ys =>
        cases a <;> first
          | (simp [PrtIsEqualValue] at h1; done)
          | skip
        cases c <;> first
          | (simp [PrtIsEqualValue] at h2; done)
          | skip
        rename_i xs zs
        simp only [PrtIsEqualValue] at h1 h2 ⊢
        simp at hb
        refine eqValueList_trans (fun y hy a c ha hc => ?_) xs zs h1 h2
        have hs := List.sizeOf_lt_of_mem hy
        exact ih y (by omega) a c ha hc
      | seq ys =>
        cases a <;> first
          | (simp [PrtIsEqualValue] at h1; done)
          | skip
        cases c <;> first
          | (simp [PrtIsEqualValue] at h2; done)
          | skip
        rename_i xs zs
        simp only [PrtIsEqualValue] at h1 h2 ⊢
        simp at hb
        refine eqValueList_trans (fun y hy a c ha hc => ?_) xs zs h1 h2
        have hs := List.sizeOf_lt_of_mem hy
        exact ih y (by omega) a c ha hc
      | map fs =>
        cases a <;> first
          | (simp [PrtIsEqualValue] at h1; done)
          | skip
        cases c <;> first
          | (simp [PrtIsEqualValue] at h2; done)
          | skip
        rename_i es gs
        simp only [PrtIsEqualValue, Bool.and_eq_true, beq_iff_eq] at h1 h2 ⊢
        obtain ⟨hlen1, hsub1⟩ := h1
        obtain ⟨hlen2, hsub2⟩ := h2
        refine ⟨hlen1.trans hlen2, ?_⟩
        simp at hb
        rw [mapEntriesSub_iff] at hsub1 hsub2 ⊢
        intro p hp
        have h3 := mapEntriesFind_iff.mp (hsub1 p hp)
        obtain ⟨q, hq, hk1, hv1⟩ := h3
        have h4 := mapEntriesFind_iff.mp (hsub2 q hq)
        obtain ⟨r, hr, hk2, hv2⟩ := h4
        have hsz := sizeOf_pair_lt_of_mem hq
        refine mapEntriesFind_iff.mpr ⟨r, hr, ?_, ?_⟩
        · exact ih q.1 (by omega) p.1 r.1 hk1 hk2
        · exact ih q.2 (by omega) p.2 r.2 hv1 hv2
  exact fun b a c h1 h2 => MAIN (sizeOf b) b le_rfl a c h1 h2

theorem keysDistinct_get {es : List (PrtValue × PrtValue)} (h : keysDistinct es = true)
    {i j : Fin es.length} (hne : i ≠ j) :
    PrtIsEqualValue (es.get i).1 (es.get j).1 = false := by
  have hp := List.pairwise_iff_get.mp (keysDistinct_pairwise h)
  rcases lt_trichotomy i j with hlt | heq | hgt
  · exact (hp i j hlt).1
  · exact absurd heq hne
  · exact (hp j i hgt).2

theorem mapMatch_bijection
    (es fs : List (PrtValue × PrtValue))
    (hlen : es.length = fs.length)
    (hdist : keysDistinct es = true)
    (hsub : mapEntriesSub es fs = true)
    (Hsym : ∀ p ∈ es, ∀ q ∈ fs, PrtIsEqualValue p.1 q.1 = true →
      PrtIsEqualValue q.1 p.1 = true) :
    ∃ m : Fin es.length → Fin fs.length, Function.Bijective m ∧
      ∀ i : Fin es.length,
        PrtIsEqualValue (es.get i).1 ((fs.get (m i)).1) = true ∧
        PrtIsEqualValue (es.get i).2 ((fs.get (m i)).2) = true := by
  have hmatch : ∀ i : Fin es.length, ∃ j : Fin fs.length,
      PrtIsEqualValue (es.get i).1 ((fs.get j).1) = true ∧
      PrtIsEqualValue (es.get i).2 ((fs.get j).2) = true := by
    intro i
    have hm := mapEntriesSub_iff.mp hsub (es.get i) (List.get_mem es i.1 i.2)
    rw [mapEntriesFind_iff] at hm
    obtain ⟨q, hq, hk, hv⟩ := hm
    obtain ⟨j, hj⟩ := List.mem_iff_get.mp hq
    exact ⟨j, by rw [hj]; exact hk, by rw [hj]; exact hv⟩
  classical
  choose m hmk hmv using hmatch
  have hinj : Function.Injective m := by
    intro i1 i2 hm12
    by_contra hne
    have h1 := hmk i1
    have h2 := hmk i2
    rw [hm12] at h1
    have hflip := Hsym (es.get i2) (List.get_mem es i2.1 i2.2)
      (fs.get (m i2)) (List.get_mem fs (m i2).1 (m i2).2) h2
    have htr := PrtIsEqualValue_trans ((fs.get (m i2)).1) ((es.get i1).1)
      ((es.get i2).1) h1 hflip
    have hfalse := keysDistinct_get hdist hne
    rw [htr] at hfalse
    exact Bool.noConfusion hfalse
  have hbij : Function.Bijective m := by
    rw [Fintype.bijective_iff_injective_and_card]
    exact ⟨hinj, by simp [hlen]⟩
  exact ⟨m, hbij, fun i => ⟨hmk i, hmv i⟩⟩

theorem eqValueList_symm {xs ys : List PrtValue}
    (H : ∀ x ∈ xs, ∀ y ∈ ys, PrtIsEqualValue x y = true → PrtIsEqualValue y x = true)
    (h : eqValueList xs ys = true) : eqValueList ys xs = true := by
  induction xs generalizing ys with
  | nil => cases ys <;> simp_all [eqValueList]
  | cons x xs ih =>
    cases ys with
    | nil => simp [eqValueList] at h
    | cons y ys =>
      simp only [eqValueList, Bool.and_eq_true] at h ⊢
      exact ⟨H x (by simp) y (by simp) h.1,
             ih (fun u hu v hv huv => H u (by simp [hu]) v (by simp [hv]) huv) h.2⟩

theorem wfValueList_mem {xs : List PrtValue} (h : wfValueList xs = true) :
    ∀ x ∈ xs, prtWf x = true := by
  induction xs with
  | nil => simp
  | cons x xs ih =>
    simp only [wfValueList, Bool.and_eq_true] at h
    intro y hy
    rcases List.mem_cons.mp hy with rfl | hy2
    · exact h.1
    · exact ih h.2 y hy2

theorem wfValueEntries_mem {es : List (PrtValue × PrtValue)} (h : wfValueEntries es = true) :
    ∀ p ∈ es, prtWf p.1 = true ∧ prtWf p.2 = true := by
  induction es with
  | nil => simp
  | cons p es ih =>
    obtain ⟨k, v⟩ := p
    simp only [wfValueEntries, Bool.and_eq_true] at h
    intro q hq
    rcases List.mem_cons.mp hq with rfl | hq2
    · exact ⟨h.1.1, h.1.2⟩
    · exact ih h.2 q hq2

/-- Structural equality is symmetric on well-formed values (values whose
nested maps all satisfy the unique-keys invariant). -/
theorem PrtIsEqualValue_symm :
    ∀ a b, prtWf a = true → prtWf b = true → PrtIsEqualValue a b = true →
      PrtIsEqualValue b a = true := by
  have MAIN : ∀ n a, sizeOf a ≤ n → ∀ b, prtWf a = true → prtWf b = true →
      PrtIsEqualValue a b = true → PrtIsEqualValue b a = true := by
    intro n
    induction n with
    | zero =>
      intro a ha
      exact absurd ha (by have := prtValue_one_le_sizeOf a; omega)
    | succ n ih =>
      intro a ha b hwa hwb h
      cases a with
      | bool x =>
        cases b <;> first | (simp [PrtIsEqualValue] at h; done) | skip
        simp [PrtIsEqualValue] at h ⊢
        exact h.symm
      | event x =>
        cases b <;> first | (simp [PrtIsEqualValue] at h; done) | skip
        simp [PrtIsEqualValue] at h ⊢
        omega
      | int x =>
        cases b <;> first | (simp [PrtIsEqualValue] at h; done) | skip
        simp [PrtIsEqualValue] at h ⊢
        omega
      | machine x =>
        cases b <;> first | (simp [PrtIsEqualValue] at h; done) | skip
        simp [PrtIsEqualValue] at h ⊢
        omega
      | model x =>
        cases b <;> first | (simp [PrtIsEqualValue] at h; done) | skip
        simp [PrtIsEqualValue] at h ⊢
        omega
      | forgn t p =>
        cases b <;> first | (simp [PrtIsEqualValue] at h; done) | skip
        simp [PrtIsEqualValue] at h ⊢
        exact ⟨h.1.symm, h.2.symm⟩
      | tuple xs =>
        cases b <;> first | (simp [PrtIsEqualValue] at h; done) | skip
        rename_i ys
        simp only [PrtIsEqualValue] at h ⊢
        simp only [prtWf] at hwa hwb
        simp at ha
        refine eqValueList_symm (fun x hx y hy hxy => ?_) h
        have hs := List.sizeOf_lt_of_mem hx
        exact ih x (by omega) y (wfValueList_mem hwa x hx) (wfValueList_mem hwb y hy) hxy
      | seq xs =>
        cases b <;> first | (simp [PrtIsEqualValue] at h; done) | skip
        rename_i ys
        simp only [PrtIsEqualValue] at h ⊢
        simp only [prtWf] at hwa hwb
        simp at ha
        refine eqValueList_symm (fun x hx y hy hxy => ?_) h
        have hs := List.sizeOf_lt_of_mem hx
        exact ih x (by omega) y (wfValueList_mem hwa x hx) (wfValueList_mem hwb y hy) hxy
      | map es =>
        cases b <;> first | (simp [PrtIsEqualValue] at h; done) | skip
        rename_i fs
        simp only [PrtIsEqualValue, Bool.and_eq_true, beq_iff_eq] at h ⊢
        obtain ⟨hlen, hsub⟩ := h
        simp only [prtWf, Bool.and_eq_true] at hwa hwb
        obtain ⟨hdist1, hwes⟩ := hwa
        obtain ⟨hdist2, hwfs⟩ := hwb
        simp at ha
        refine ⟨hlen.symm, ?_⟩
        have Hsym : ∀ p ∈ es, ∀ q ∈ fs, PrtIsEqualValue p.1 q.1 = true →
            PrtIsEqualValue q.1 p.1 = true := by
          intro p hp q hq hpq
          have hs := sizeOf_pair_lt_of_mem hp
          exact ih p.1 (by omega) q.1 ((wfValueEntries_mem hwes p hp).1)
            ((wfValueEntries_mem hwfs q hq).1) hpq
        obtain ⟨m, hbij, hm⟩ := mapMatch_bijection es fs hlen hdist1 hsub Hsym
        rw [mapEntriesSub_iff]
        intro q hq
        obtain ⟨j, hj⟩ := List.mem_iff_get.mp hq
        obtain ⟨i, hi⟩ := hbij.2 j
        have hmem : es.get i ∈ es := List.get_mem es i.1 i.2
        have hs := sizeOf_pair_lt_of_mem hmem
        have hk := (hm i).1
        have hv := (hm i).2
        rw [hi, hj] at hk hv
        rw [mapEntriesFind_iff]
        refine ⟨es.get i, hmem, ?_, ?_⟩
        · exact ih (es.get i).1 (by omega) q.1 ((wfValueEntries_mem hwes _ hmem).1)
            ((wfValueEntries_mem hwfs q hq).1) hk
        · exact ih (es.get i).2 (by omega) q.2 ((wfValueEntries_mem hwes _ hmem).2)
            ((wfValueEntries_mem hwfs q hq).2) hv
  exact fun a b hwa hwb h => MAIN (sizeOf a) a le_rfl b hwa hwb h

theorem hashValueList_congr {xs ys : List PrtValue}
    (H : ∀ x ∈ xs, ∀ y ∈ ys, PrtIsEqualValue x y = true →
      PrtGetHashCodeValue x = PrtGetHashCodeValue y)
    (h : eqValueList xs ys = true) :
    ∀ h0, hashValueList h0 xs = hashValueList h0 ys := by
  induction xs generalizing ys with
  | nil => cases ys <;> simp_all [eqValueList]
  | cons x xs ih =>
    cases ys with
    | nil => simp [eqValueList] at h
    | cons y ys =>
      intro h0
      simp only [eqValueList, Bool.and_eq_true] at h
      simp only [hashValueList]
      rw [H x (by simp) y (by simp) h.1]
      exact ih (fun u hu v hv huv => H u (by simp [hu]) v (by simp [hv]) huv) h.2 _

/-- The mixed hash contribution of one map node. -/
def pairMixHash (p : PrtValue × PrtValue) : Nat :=
  hashMix (PrtGetHashCodeValue p.1) (PrtGetHashCodeValue p.2)

theorem hashValueEntries_eq_sum (es : List (PrtValue × PrtValue)) :
    hashValueEntries es = ∑ i : Fin es.length, pairMixHash (es.get i) := by
  induction es with
  | nil => simp [hashValueEntries]
  | cons p es ih =>
    obtain ⟨k, v⟩ := p
    simp [hashValueEntries, pairMixHash, Fin.sum_univ_succ, ih]

theorem hashValueEntries_congr
    (es fs : List (PrtValue × PrtValue))
    (hlen : es.length = fs.length)
    (hdist : keysDistinct es = true)
    (hsub : mapEntriesSub es fs = true)
    (Hsym : ∀ p ∈ es, ∀ q ∈ fs, PrtIsEqualValue p.1 q.1 = true →
      PrtIsEqualValue q.1 p.1 = true)
    (Hhash : ∀ p ∈ es, ∀ q ∈ fs,
        (PrtIsEqualValue p.1 q.1 = true →
          PrtGetHashCodeValue p.1 = PrtGetHashCodeValue q.1) ∧
        (PrtIsEqualValue p.2 q.2 = true →
          PrtGetHashCodeValue p.2 = PrtGetHashCodeValue q.2)) :
    hashValueEntries es = hashValueEntries fs := by
  obtain ⟨m, hbij, hm⟩ := mapMatch_bijection es fs hlen hdist hsub Hsym
  rw [hashValueEntries_eq_sum, hashValueEntries_eq_sum]
  have hpt : ∀ i : Fin es.length, pairMixHash (es.get i) = pairMixHash (fs.get (m i)) := by
    intro i
    have hmem := List.get_mem es i.1 i.2
    have hmem2 := List.get_mem fs (m i).1 (m i).2
    have hh := Hhash (es.get i) hmem (fs.get (m i)) hmem2
    unfold pairMixHash
    rw [hh.1 (hm i).1, hh.2 (hm i).2]
  calc (∑ i : Fin es.length, pairMixHash (es.get i))
      = ∑ i : Fin es.length, pairMixHash (fs.get (m i)) :=
        Finset.sum_congr rfl (fun i _ => hpt i)
    _ = ∑ j : Fin fs.length, pairMixHash (fs.get j) :=
        (Equiv.ofBijective m hbij).sum_comp (fun j => pairMixHash (fs.get j))

/-- Structural hashing respects structural equality on well-formed values. -/
theorem PrtGetHashCodeValue_congr :
    ∀ a b, prtWf a = true → prtWf b = true → PrtIsEqualValue a b = true →
      PrtGetHashCodeValue a = PrtGetHashCodeValue b := by
  have MAIN : ∀ n a, sizeOf a ≤ n → ∀ b, prtWf a = true → prtWf b = true →
      PrtIsEqualValue a b = true → PrtGetHashCodeValue a = PrtGetHashCodeValue b := by
    intro n
    induction n with
    | zero =>
      intro a ha
      exact absurd ha (by have := prtValue_one_le_sizeOf a; omega)
    | succ n ih =>
      intro a ha b hwa hwb h
      cases a with
      | bool x =>
        cases b <;> first | (simp [PrtIsEqualValue] at h; done) | skip
        simp [PrtIsEqualValue] at h
        simp [PrtGetHashCodeValue, h]
      | event x =>
        cases b <;> first | (simp [PrtIsEqualValue] at h; done) | skip
        simp [PrtIsEqualValue] at h
        simp [PrtGetHashCodeValue, h]
      | int x =>
        cases b <;> first | (simp [PrtIsEqualValue] at h; done) | skip
        simp [PrtIsEqualValue] at h
        simp [PrtGetHashCodeValue, h]
      | machine x =>
        cases b <;> first | (simp [PrtIsEqualValue] at h; done) | skip
        simp [PrtIsEqualValue] at h
        simp [PrtGetHashCodeValue, h]
      | model x =>
        cases b <;> first | (simp [PrtIsEqualValue] at h; done) | skip
        simp [PrtIsEqualValue] at h
        simp [PrtGetHashCodeValue, h]
      | forgn t p =>
        cases b <;> first | (simp [PrtIsEqualValue] at h; done) | skip
        simp [PrtIsEqualValue] at h
        simp [PrtGetHashCodeValue, h.1, h.2]
      | tuple xs =>
        cases b <;> first | (simp [PrtIsEqualValue] at h; done) | skip
        rename_i ys
        simp only [PrtIsEqualValue] at h
        simp only [prtWf] at hwa hwb
        simp only [PrtGetHashCodeValue]
        simp at ha
        refine hashValueList_congr (fun x hx y hy hxy => ?_) h 7
        have hs := List.sizeOf_lt_of_mem hx
        exact ih x (by omega) y (wfValueList_mem hwa x hx) (wfValueList_mem hwb y hy) hxy
      | seq xs =>
        cases b <;> first | (simp [PrtIsEqualValue] at h; done) | skip
        rename_i ys
        simp only [PrtIsEqualValue] at h
        simp only [prtWf] at hwa hwb
        simp only [PrtGetHashCodeValue]
        simp at ha
        refine hashValueList_congr (fun x hx y hy hxy => ?_) h 11
        have hs := List.sizeOf_lt_of_mem hx
        exact ih x (by omega) y (wfValueList_mem hwa x hx) (wfValueList_mem hwb y hy) hxy
      | map es =>
        cases b <;> first | (simp [PrtIsEqualValue] at h; done) | skip
        rename_i fs
        simp only [PrtIsEqualValue, Bool.and_eq_true, beq_iff_eq] at h
        obtain ⟨hlen, hsub⟩ := h
        simp only [prtWf, Bool.and_eq_true] at hwa hwb
        obtain ⟨hdist1, hwes⟩ := hwa
        obtain ⟨hdist2, hwfs⟩ := hwb
        simp at ha
        simp only [PrtGetHashCodeValue]
        have Hsym : ∀ p ∈ es, ∀ q ∈ fs, PrtIsEqualValue p.1 q.1 = true →
            PrtIsEqualValue q.1 p.1 = true := by
          intro p hp q hq hpq
          exact PrtIsEqualValue_symm p.1 q.1 ((wfValueEntries_mem hwes p hp).1)
            ((wfValueEntries_mem hwfs q hq).1) hpq
        have Hhash : ∀ p ∈ es, ∀ q ∈ fs,
            (PrtIsEqualValue p.1 q.1 = true →
              PrtGetHashCodeValue p.1 = PrtGetHashCodeValue q.1) ∧
            (PrtIsEqualValue p.2 q.2 = true →
              PrtGetHashCodeValue p.2 = PrtGetHashCodeValue q.2) := by
          intro p hp q hq
          have hs := sizeOf_pair_lt_of_mem hp
          constructor
          · intro hk
            exact ih p.1 (by omega) q.1 ((wfValueEntries_mem hwes p hp).1)
              ((wfValueEntries_mem hwfs q hq).1) hk
          · intro hv
            exact ih p.2 (by omega) q.2 ((wfValueEntries_mem hwes p hp).2)
              ((wfValueEntries_mem hwfs q hq).2) hv
        rw [hashValueEntries_congr es fs hlen hdist1 hsub Hsym Hhash]
  exact fun a b hwa hwb h => MAIN (sizeOf a) a le_rfl b hwa hwb h

/-- C3: for all values `a` and `b` (well-formed: every nested map satisfies
the unique-keys invariant maintained by the containers), if
`IsEqualValue(a, b)` returns true then `GetHashCodeValue(a)` equals
`GetHashCodeValue(b)` — structural hash is consistent with structural
equality over every value kind. -/
theorem isEqual_hash_consistent (a b : PrtValue)
    (hwa : prtWf a = true) (hwb : prtWf b = true)
    (h : PrtIsEqualValue a b = true) :
    PrtGetHashCodeValue a = PrtGetHashCodeValue b :=
  PrtGetHashCodeValue_congr a b hwa hwb h

/-- C3 witness at a concrete well-formed map value. -/
theorem isEqual_hash_consistent_w :
    prtWf (.map [(.int 1, .bool true)]) = true ∧
    PrtIsEqualValue (.map [(.int 1, .bool true)]) (.map [(.int 1, .bool true)]) = true ∧
    PrtGetHashCodeValue (PrtValue.map [(.int 1, .bool true)]) =
      PrtGetHashCodeValue (PrtValue.map [(.int 1, .bool true)]) := by
  have h1 : prtWf (.map [(.int 1, .bool true)]) = true := by
    simp [prtWf, keysDistinct, notKeyOf, wfValueEntries]
  have h2 : PrtIsEqualValue (.map [(.int 1, .bool true)])
      (.map [(.int 1, .bool true)]) = true := PrtIsEqualValue_refl _
  exact ⟨h1, h2, isEqual_hash_consistent _ _ h1 h1 h2⟩

theorem mapExistsEntries_remove (es : List (PrtValue × PrtValue)) (k : PrtValue)
    (hdist : keysDistinct es = true)
    (Hsym : ∀ p ∈ es, PrtIsEqualValue k p.1 = true → PrtIsEqualValue p.1 k = true) :
    mapExistsEntries (mapRemoveEntries es k) k = false := by
  induction es with
  | nil => simp [mapRemoveEntries, mapExistsEntries]
  | cons p es ih =>
    obtain ⟨k0, v0⟩ := p
    simp only [keysDistinct, Bool.and_eq_true] at hdist
    cases hx : PrtIsEqualValue k k0 with
    | true =>
      simp only [mapRemoveEntries, hx, if_true]
      cases hex : mapExistsEntries es k with
      | false => rfl
      | true =>
        exfalso
        obtain ⟨p, hp, hkp⟩ := mapExistsEntries_iff.mp hex
        have h1 := Hsym (k0, v0) (by simp) hx
        have h2 := PrtIsEqualValue_trans k k0 p.1 h1 hkp
        have h3 := (notKeyOf_iff.mp hdist.1 p hp).1
        rw [h2] at h3
        exact Bool.noConfusion h3
    | false =>
      simp only [mapRemoveEntries, hx, Bool.false_eq_true, if_false]
      simp only [mapExistsEntries, hx, Bool.false_or]
      exact ih hdist.2 (fun q hq hkq => Hsym q (by simp [hq]) hkq)

/-- C1: after `MapUpdate(m, k, v)`, `MapExists(m, k)` returns true and
`MapGet(m, k)` returns a value structurally equal to `v`; after
`MapRemove(m, k)`, `MapExists(m, k)` returns false, the size is exactly
one less when `k` was present, and the map is unchanged when `k` was
absent (for a well-formed map and key). -/
theorem mapUpdate_mapRemove_spec (es : List (PrtValue × PrtValue)) (k v : PrtValue)
    (hwm : prtWf (.map es) = true) (hwk : prtWf k = true) :
    PrtMapExists (PrtMapUpdate (.map es) k v) k = true ∧
    (∃ w, PrtMapGet (PrtMapUpdate (.map es) k v) k = some w ∧
      PrtIsEqualValue w v = true) ∧
    PrtMapExists (PrtMapRemove (.map es) k) k = false ∧
    (PrtMapExists (.map es) k = true →
      PrtMapSizeOf (PrtMapRemove (.map es) k) + 1 = PrtMapSizeOf (.map es)) ∧
    (PrtMapExists (.map es) k = false → PrtMapRemove (.map es) k = .map es) := by
  simp only [PrtMapUpdate, PrtMapRemove, PrtMapExists, PrtMapGet, PrtMapSizeOf,
    PrtCloneValue_eq_self]
  simp only [prtWf, Bool.and_eq_true] at hwm
  refine ⟨mapExistsEntries_update es k v, ?_, ?_, ?_, ?_⟩
  · refine ⟨v, ?_, PrtIsEqualValue_refl v⟩
    rw [mapLookupEntries_update es k v]
    simp [PrtCloneValue_eq_self]
  · exact mapExistsEntries_remove es k hwm.1 (fun p hp hkp =>
      PrtIsEqualValue_symm k p.1 hwk ((wfValueEntries_mem hwm.2 p hp).1) hkp)
  · intro hex
    exact mapRemoveEntries_length_of_exists es k hex
  · intro hnex
    rw [mapRemoveEntries_of_not_exists es k hnex]

/-- C1 witness at a concrete map, key and value. -/
theorem mapUpdate_mapRemove_spec_w :
    prtWf (.map [(.int 1, .int 10)]) = true ∧ prtWf (.int 2) = true ∧
    PrtMapExists (PrtMapUpdate (.map [(.int 1, .int 10)]) (.int 2) (.int 20))
      (.int 2) = true := by
  have h1 : prtWf (.map [(.int 1, .int 10)]) = true := by
    simp [prtWf, keysDistinct, notKeyOf, wfValueEntries]
  have h2 : prtWf (.int 2) = true := by simp [prtWf]
  exact ⟨h1, h2,
    (mapUpdate_mapRemove_spec [(.int 1, .int 10)] (.int 2) (.int 20) h1 h2).1⟩

/-- C2: two maps built by inserting the same two bindings with structurally
unequal keys in opposite orders are structurally equal and carry the same
hash code. -/
theorem mapInsertion_order_independent (k1 v1 k2 v2 : PrtValue)
    (h21 : PrtIsEqualValue k2 k1 = false) (h12 : PrtIsEqualValue k1 k2 = false) :
    PrtIsEqualValue
      (PrtMapUpdate (PrtMapUpdate (.map []) k1 v1) k2 v2)
      (PrtMapUpdate (PrtMapUpdate (.map []) k2 v2) k1 v1) = true ∧
    PrtGetHashCodeValue (PrtMapUpdate (PrtMapUpdate (.map []) k1 v1) k2 v2) =
      PrtGetHashCodeValue (PrtMapUpdate (PrtMapUpdate (.map []) k2 v2) k1 v1) := by
  have hA : PrtMapUpdate (PrtMapUpdate (.map []) k1 v1) k2 v2 =
      .map [(k1, v1), (k2, v2)] := by
    simp [PrtMapUpdate, mapUpdateEntries, PrtCloneValue_eq_self, h21]
  have hB : PrtMapUpdate (PrtMapUpdate (.map []) k2 v2) k1 v1 =
      .map [(k2, v2), (k1, v1)] := by
    simp [PrtMapUpdate, mapUpdateEntries, PrtCloneValue_eq_self, h12]
  rw [hA, hB]
  constructor
  · simp [PrtIsEqualValue, mapEntriesSub, mapEntriesFind, h12, h21,
      PrtIsEqualValue_refl]
  · simp only [PrtGetHashCodeValue, hashValueEntries, u32]
    omega

/-- C2 witness at concrete integer keys and values. -/
theorem mapInsertion_order_independent_w :
    PrtIsEqualValue (.int 2) (.int 1) = false ∧
    PrtIsEqualValue (.int 1) (.int 2) = false ∧
    PrtIsEqualValue
      (PrtMapUpdate (PrtMapUpdate (.map []) (.int 1) (.int 10)) (.int 2) (.int 20))
      (PrtMapUpdate (PrtMapUpdate (.map []) (.int 2) (.int 20)) (.int 1) (.int 10)) = true := by
  have h21 : PrtIsEqualValue (.int 2) (.int 1) = false := by simp [PrtIsEqualValue]
  have h12 : PrtIsEqualValue (.int 1) (.int 2) = false := by simp [PrtIsEqualValue]
  exact ⟨h21, h12,
    (mapInsertion_order_independent (.int 1) (.int 10) (.int 2) (.int 20) h21 h12).1⟩

theorem mapUpdateEntries_keys_of_exists (es : List (PrtValue × PrtValue)) (k v : PrtValue)
    (h : mapExistsEntries es k = true) :
    (mapUpdateEntries es k v).map Prod.fst = es.map Prod.fst := by
  induction es with
  | nil => simp [mapExistsEntries] at h
  | cons p es ih =>
    obtain ⟨k0, v0⟩ := p
    cases hx : PrtIsEqualValue k k0 with
    | true => simp [mapUpdateEntries, hx]
    | false =>
      simp only [mapExistsEntries, hx, Bool.false_or] at h
      simp [mapUpdateEntries, hx, ih h]

theorem mapUpdateEntries_keys_of_not_exists (es : List (PrtValue × PrtValue)) (k v : PrtValue)
    (h : mapExistsEntries es k = false) :
    (mapUpdateEntries es k v).map Prod.fst = es.map Prod.fst ++ [k] := by
  induction es with
  | nil => simp [mapUpdateEntries]
  | cons p es ih =>
    obtain ⟨k0, v0⟩ := p
    simp only [mapExistsEntries, Bool.or_eq_false_iff] at h
    simp [mapUpdateEntries, h.1, ih h.2]

/-- C5: `MapGetKeys` enumerates the keys in insertion order (oldest first):
updating an existing key leaves the key sequence unchanged, inserting a
fresh key appends it at the tail, and only `MapRemove` removes a key;
concretely, inserting 1→10, 2→20, 3→30 into an empty map yields keys
[1, 2, 3]; after removing key 2 the keys are [1, 3] and the size is 2. -/
theorem mapGetKeys_insertion_order (es : List (PrtValue × PrtValue)) (k v : PrtValue) :
    (PrtMapExists (.map es) k = true →
      PrtMapGetKeys (PrtMapUpdate (.map es) k v) = PrtMapGetKeys (.map es)) ∧
    (PrtMapExists (.map es) k = false →
      PrtMapGetKeys (PrtMapUpdate (.map es) k v) = .seq (es.map Prod.fst ++ [k])) ∧
    (PrtMapGetKeys (PrtMapUpdate (PrtMapUpdate (PrtMapUpdate (.map [])
        (.int 1) (.int 10)) (.int 2) (.int 20)) (.int 3) (.int 30)) =
      .seq [.int 1, .int 2, .int 3]) ∧
    (PrtMapGetKeys (PrtMapRemove (PrtMapUpdate (PrtMapUpdate (PrtMapUpdate (.map [])
        (.int 1) (.int 10)) (.int 2) (.int 20)) (.int 3) (.int 30)) (.int 2)) =
      .seq [.int 1, .int 3]) ∧
    PrtMapSizeOf (PrtMapRemove (PrtMapUpdate (PrtMapUpdate (PrtMapUpdate (.map [])
        (.int 1) (.int 10)) (.int 2) (.int 20)) (.int 3) (.int 30)) (.int 2)) = 2 := by
  refine ⟨?_, ?_, ?_, ?_, ?_⟩
  · intro h
    simp only [PrtMapExists] at h
    simp [PrtMapGetKeys, PrtMapUpdate, PrtCloneValue_eq_self,
      mapUpdateEntries_keys_of_exists es k v h]
  · intro h
    simp only [PrtMapExists] at h
    simp [PrtMapGetKeys, PrtMapUpdate, PrtCloneValue_eq_self,
      mapUpdateEntries_keys_of_not_exists es k v h]
  · simp [PrtMapUpdate, mapUpdateEntries, PrtCloneValue, PrtMapGetKeys, PrtIsEqualValue]
  · simp [PrtMapUpdate, mapUpdateEntries, PrtCloneValue, PrtMapGetKeys, PrtMapRemove,
      mapRemoveEntries, PrtIsEqualValue]
  · simp [PrtMapUpdate, mapUpdateEntries, PrtCloneValue, PrtMapRemove,
      mapRemoveEntries, PrtMapSizeOf, PrtIsEqualValue]

/-- C5 witness at a concrete map and key discharging the two conditional
clauses. -/
theorem mapGetKeys_insertion_order_w :
    PrtMapExists (.map [((.int 1 : PrtValue), (.int 10 : PrtValue))]) (.int 1) = true ∧
    PrtMapGetKeys (PrtMapUpdate (.map [(.int 1, .int 10)]) (.int 1) (.int 99)) =
      PrtMapGetKeys (.map [(.int 1, .int 10)]) := by
  have h : PrtMapExists (.map [((.int 1 : PrtValue), (.int 10 : PrtValue))]) (.int 1) = true := by
    simp [PrtMapExists, mapExistsEntries, PrtIsEqualValue]
  exact ⟨h, (mapGetKeys_insertion_order [(.int 1, .int 10)] (.int 1) (.int 99)).1 h⟩

/-- Modelled from the spec: the outcome of a fallible container mutation,
distinguishing success from an allocation failure. -/
inductive PrtStatus where
  | success
  | memError

/-- Modelled from the spec: `_PRT_SEQVALUE` with its logical size
(`values.length`) and the allocated capacity. -/
structure PrtSeqRep where
  values : List PrtValue
  capacity : Nat

/-- Modelled from the spec: `PrtSeqInsert` against an allocation oracle —
growth past capacity allocates a larger buffer; when that allocation fails
the operation surfaces `memError` and the sequence is returned in its
exact pre-call state; otherwise the insertion completes fully. -/
def prtSeqInsertChecked (allocOk : Bool) (s : PrtSeqRep) (i : Nat) (x : PrtValue) :
    PrtStatus × PrtSeqRep :=
  if s.values.length < s.capacity then
    (.success, ⟨seqInsertList s.values i (PrtCloneValue x), s.capacity⟩)
  else if allocOk then
    (.success, ⟨seqInsertList s.values i (PrtCloneValue x), 2 * s.capacity + 1⟩)
  else
    (.memError, s)

/-- Modelled from the spec: `PrtMapUpdate` against an allocation oracle —
replacing the value of an existing key needs no fresh node; appending a
fresh node allocates and, on failure, surfaces `memError` with the entry
list in its exact pre-call state. -/
def prtMapUpdateChecked (allocOk : Bool) (es : List (PrtValue × PrtValue))
    (k v : PrtValue) : PrtStatus × List (PrtValue × PrtValue) :=
  if mapExistsEntries es k then
    (.success, mapUpdateEntries es k v)
  else if allocOk then
    (.success, mapUpdateEntries es k v)
  else
    (.memError, es)

/-- C9: a container mutation that can allocate either completes fully or —
when the allocator fails — surfaces the distinguishable allocation-failure
outcome `memError` with the container left exactly in its pre-call state;
no partially applied mutation remains visible. -/
theorem alloc_failure_atomic (allocOk : Bool) (s : PrtSeqRep) (i : Nat) (x : PrtValue)
    (es : List (PrtValue × PrtValue)) (k v : PrtValue) :
    ((prtSeqInsertChecked allocOk s i x).1 = .memError →
      (prtSeqInsertChecked allocOk s i x).2 = s) ∧
    ((prtSeqInsertChecked allocOk s i x).1 = .success →
      (prtSeqInsertChecked allocOk s i x).2.values =
        seqInsertList s.values i (PrtCloneValue x)) ∧
    ((prtMapUpdateChecked allocOk es k v).1 = .memError →
      (prtMapUpdateChecked allocOk es k v).2 = es) ∧
    ((prtMapUpdateChecked allocOk es k v).1 = .success →
      (prtMapUpdateChecked allocOk es k v).2 = mapUpdateEntries es k v) ∧
    PrtStatus.memError ≠ PrtStatus.success := by
  unfold prtSeqInsertChecked prtMapUpdateChecked
  refine ⟨?_, ?_, ?_, ?_, by simp⟩ <;> split <;> (try split) <;> simp

/-- C9 witness: a concrete failing growth leaves the sequence untouched. -/
theorem alloc_failure_atomic_w :
    (prtSeqInsertChecked false ⟨[.int 1], 1⟩ 0 (.int 2)).1 = PrtStatus.memError ∧
    (prtSeqInsertChecked false ⟨[.int 1], 1⟩ 0 (.int 2)).2 = ⟨[.int 1], 1⟩ := by
  have h1 : (prtSeqInsertChecked false ⟨[.int 1], 1⟩ 0 (.int 2)).1 = PrtStatus.memError := by
    simp [prtSeqInsertChecked]
  exact ⟨h1,
    (alloc_failure_atomic false ⟨[.int 1], 1⟩ 0 (.int 2) [] (.int 0) (.int 0)).1 h1⟩

/-- Modelled from the spec: head test for the wildcard type `any`. -/
def isAnyType : PrtType → Bool
  | .any => true
  | _ => false

/-- Modelled from the spec: a stored runtime value as laid out by
`struct _PRT_VALUE`: every node carries its declared type expression
(`type` field) alongside the discriminated payload. -/
inductive TyValue where
  | bool (ty : PrtType) (b : Bool)
  | event (ty : PrtType) (n : Nat)
  | int (ty : PrtType) (n : Int)
  | machine (ty : PrtType) (n : Nat)
  | model (ty : PrtType) (n : Nat)
  | forgn (ty : PrtType) (tag : Nat) (payload : Nat)
  | tuple (ty : PrtType) (elems : List TyValue)
  | seq (ty : PrtType) (elems : List TyValue)
  | map (ty : PrtType) (entries : List (TyValue × TyValue))

/-- The type expression stored at the top of a value node. -/
def TyValue.topType : TyValue → PrtType
  | .bool ty _ => ty
  | .event ty _ => ty
  | .int ty _ => ty
  | .machine ty _ => ty
  | .model ty _ => ty
  | .forgn ty _ _ => ty
  | .tuple ty _ => ty
  | .seq ty _ => ty
  | .map ty _ => ty

mutual

/-- Modelled from the spec: the file-header invariant — no node anywhere in
the value tree stores `any` as its top-level type; `any` may occur only
inside a stored type expression. -/
def noTopAny : TyValue → Bool
  | .bool ty _ => !isAnyType ty
  | .event ty _ => !isAnyType ty
  | .int ty _ => !isAnyType ty
  | .machine ty _ => !isAnyType ty
  | .model ty _ => !isAnyType ty
  | .forgn ty _ _ => !isAnyType ty
  | .tuple ty xs => !isAnyType ty && noTopAnyList xs
  | .seq ty xs => !isAnyType ty && noTopAnyList xs
  | .map ty es => !isAnyType ty && noTopAnyEntries es

/-- The invariant over every element of a list of nodes. -/
def noTopAnyList : List TyValue → Bool
  | [] => true
  | x :: xs => noTopAny x && noTopAnyList xs

/-- The invariant over every key and value of a map's node list. -/
def noTopAnyEntries : List (TyValue × TyValue) → Bool
  | [] => true
  | (k, v) :: es => noTopAny k && noTopAny v && noTopAnyEntries es

end

/-- Modelled from the spec: `PrtMkBoolValue` with its stored type. -/
def tyMkBoolValue (b : Bool) : TyValue := .bool .bool b

/-- Modelled from the spec: `PrtMkEventValue` with its stored type. -/
def tyMkEventValue (n : Nat) : TyValue := .event .event n

/-- Modelled from the spec: `PrtMkIntValue` with its stored type. -/
def tyMkIntValue (n : Int) : TyValue := .int .int n

/-- Modelled from the spec: `PrtMkMachineValue` with its stored type. -/
def tyMkMachineValue (n : Nat) : TyValue := .machine .machine n

/-- Modelled from the spec: `PrtMkModelValue` with its stored type. -/
def tyMkModelValue (n : Nat) : TyValue := .model .model n

/-- Modelled from the spec: `PrtMkNullValue` — `null : id`, stored with the
machine-id type. -/
def tyMkNullValue : TyValue := .machine .machine PRT_NULL_VALUE

/-- Modelled from the spec: `PrtMkForeignValue` — the stored type is the
foreign tag type, never `any`. -/
def tyMkForeignValue (tag payload : Nat) : TyValue := .forgn (.forgn tag) tag payload

mutual

/-- Modelled from the spec: `PrtMkDefaultValue` with stored types: the
default of `any` is `null : id` (stored type is the machine-id type, not
`any`); every other type stores itself at the top of its default. -/
def tyMkDefaultValue : PrtType → TyValue
  | .any => .machine .machine PRT_NULL_VALUE
  | .bool => .bool .bool false
  | .event => .event .event PRT_NULL_VALUE
  | .forgn tag => .forgn (.forgn tag) tag 0
  | .machine => .machine .machine PRT_NULL_VALUE
  | .int => .int .int 0
  | .map dom cod => .map (.map dom cod) []
  | .model => .model .model PRT_NULL_VALUE
  | .nmdTup fields => .tuple (.nmdTup fields) (tyDefaultNmdList fields)
  | .seq t => .seq (.seq t) []
  | .tuple ts => .tuple (.tuple ts) (tyDefaultList ts)

/-- Defaults of each type of a tuple shape, with stored types. -/
def tyDefaultList : List PrtType → List TyValue
  | [] => []
  | t :: ts => tyMkDefaultValue t :: tyDefaultList ts

/-- Defaults of each field of a named tuple shape, with stored types. -/
def tyDefaultNmdList : List (String × PrtType) → List TyValue
  | [] => []
  | f :: fs => tyMkDefaultValue f.2 :: tyDefaultNmdList fs

end

mutual

/-- Modelled from the spec: `PrtCloneValue` on stored values — deep copy of
payloads and of the stored type annotations. -/
def tyCloneValue : TyValue → TyValue
  | .bool ty b => .bool ty b
  | .event ty n => .event ty n
  | .int ty n => .int ty n
  | .machine ty n => .machine ty n
  | .model ty n => .model ty n
  | .forgn ty tag p => .forgn ty tag p
  | .tuple ty xs => .tuple ty (tyCloneList xs)
  | .seq ty xs => .seq ty (tyCloneList xs)
  | .map ty es => .map ty (tyCloneEntries es)

/-- Elementwise deep copy of stored tuple or sequence elements. -/
def tyCloneList : List TyValue → List TyValue
  | [] => []
  | x :: xs => tyCloneValue x :: tyCloneList xs

/-- Nodewise deep copy of stored map nodes. -/
def tyCloneEntries : List (TyValue × TyValue) → List (TyValue × TyValue)
  | [] => []
  | (k, v) :: es => (tyCloneValue k, tyCloneValue v) :: tyCloneEntries es

end

mutual

/-- Erasure of the stored type annotations, recovering the bare structural
value compared by `PrtIsEqualValue` (equality never inspects the stored
types). -/
def tyErase : TyValue → PrtValue
  | .bool _ b => .bool b
  | .event _ n => .event n
  | .int _ n => .int n
  | .machine _ n => .machine n
  | .model _ n => .model n
  | .forgn _ tag p => .forgn tag p
  | .tuple _ xs => .tuple (tyEraseList xs)
  | .seq _ xs => .seq (tyEraseList xs)
  | .map _ es => .map (tyEraseEntries es)

/-- Erasure of a list of stored nodes. -/
def tyEraseList : List TyValue → List PrtValue
  | [] => []
  | x :: xs => tyErase x :: tyEraseList xs

/-- Erasure of a stored map node list. -/
def tyEraseEntries : List (TyValue × TyValue) → List (PrtValue × PrtValue)
  | [] => []
  | (k, v) :: es => (tyErase k, tyErase v) :: tyEraseEntries es

end

/-- Modelled from the spec: the top-node re-annotation inside
`PrtCastValue`: the stored type becomes the cast target. -/
def tySetTopType : TyValue → PrtType → TyValue
  | .bool _ b, t => .bool t b
  | .event _ n, t => .event t n
  | .int _ n, t => .int t n
  | .machine _ n, t => .machine t n
  | .model _ n, t => .model t n
  | .forgn _ tag p, t => .forgn t tag p
  | .tuple _ xs, t => .tuple t xs
  | .seq _ xs, t => .seq t xs
  | .map _ es, t => .map t es

/-- Modelled from the spec: `PrtCastValue(value, type)` — a deep clone
re-annotated with the target type.  A cast to `any` keeps the value's own
more specific stored type, since a stored top-level type can never be
`any` (file-header invariant). -/
def tyCastValue (v : TyValue) (t : PrtType) : TyValue :=
  if isAnyType t then tyCloneValue v else tySetTopType (tyCloneValue v) t

/-- Modelled from the spec: `PrtTupleGet` — a fresh clone of the element at
the index; out-of-range is a contract violation, modelled by `none`. -/
def tyTupleGet : TyValue → Nat → Option TyValue
  | .tuple _ xs, i => (xs.get? i).map tyCloneValue
  | _, _ => none

/-- Modelled from the spec: `PrtSeqGet` — a fresh clone of the element at
the index. -/
def tySeqGet : TyValue → Nat → Option TyValue
  | .seq _ xs, i => (xs.get? i).map tyCloneValue
  | _, _ => none

/-- Modelled from the spec: the bucket-chain lookup of `PrtMapGet` on
stored nodes, comparing keys by type-erased structural equality. -/
def tyMapLookup : List (TyValue × TyValue) → TyValue → Option TyValue
  | [], _ => none
  | (k0, v0) :: es, k =>
      if PrtIsEqualValue (tyErase k) (tyErase k0) then some v0 else tyMapLookup es k

/-- Modelled from the spec: `PrtMapGet` on stored values — a fresh clone of
the mapped value. -/
def tyMapGet : TyValue → TyValue → Option TyValue
  | .map _ es, k => (tyMapLookup es k).map tyCloneValue
  | _, _ => none

/-- Modelled from the spec: `PrtTupleSet` — stores a clone of the argument
in the indexed slot; the tuple's own stored type never changes. -/
def tyTupleSet : TyValue → Nat → TyValue → TyValue
  | .tuple ty xs, i, x => .tuple ty (xs.set i (tyCloneValue x))
  | v, _, _ => v

/-- Modelled from the spec: the shifting insertion of `PrtSeqInsert` on
stored nodes. -/
def tySeqInsertList : List TyValue → Nat → TyValue → List TyValue
  | l, 0, x => x :: l
  | [], _ + 1, x => [x]
  | y :: l, i + 1, x => y :: tySeqInsertList l i x

/-- Modelled from the spec: `PrtSeqInsert` — stores a clone of the argument
at the index; the sequence's own stored type never changes. -/
def tySeqInsert : TyValue → Nat → TyValue → TyValue
  | .seq ty l, i, x => .seq ty (tySeqInsertList l i (tyCloneValue x))
  | v, _, _ => v

/-- Modelled from the spec: the node update of `PrtMapUpdate` on stored
nodes, comparing keys by type-erased structural equality. -/
def tyMapUpdateEntries : List (TyValue × TyValue) → TyValue → TyValue → List (TyValue × TyValue)
  | [], k, v => [(k, v)]
  | (k0, v0) :: es, k, v =>
      if PrtIsEqualValue (tyErase k) (tyErase k0) then (k0, v) :: es
      else (k0, v0) :: tyMapUpdateEntries es k v

/-- Modelled from the spec: `PrtMapUpdate` on stored values — clones key
and value before storage; the map's own stored type never changes. -/
def tyMapUpdate : TyValue → TyValue → TyValue → TyValue
  | .map ty es, k, v => .map ty (tyMapUpdateEntries es (tyCloneValue k) (tyCloneValue v))
  | m, _, _ => m

theorem tyValue_one_le_sizeOf (v : TyValue) : 1 ≤ sizeOf v := by
  cases v <;> simp <;> omega

/-- A membership-based induction principle for stored values. -/
theorem tyValue_indOn (P : TyValue → Prop)
    (hbool : ∀ ty b, P (.bool ty b))
    (hevent : ∀ ty n, P (.event ty n))
    (hint : ∀ ty n, P (.int ty n))
    (hmachine : ∀ ty n, P (.machine ty n))
    (hmodel : ∀ ty n, P (.model ty n))
    (hforgn : ∀ ty t p, P (.forgn ty t p))
    (htuple : ∀ ty xs, (∀ x ∈ xs, P x) → P (.tuple ty xs))
    (hseq : ∀ ty xs, (∀ x ∈ xs, P x) → P (.seq ty xs))
    (hmap : ∀ ty es, (∀ p ∈ es, P p.1 ∧ P p.2) → P (.map ty es)) :
    ∀ v, P v := by
  have H : ∀ n v, sizeOf v ≤ n → P v := by
    intro n
    induction n with
    | zero =>
      intro v hv
      exact absurd hv (by have := tyValue_one_le_sizeOf v; omega)
    | succ n ih =>
      intro v hv
      cases v with
      | bool ty b => exact hbool ty b
      | event ty m => exact hevent ty m
      | int ty m => exact hint ty m
      | machine ty m => exact hmachine ty m
      | model ty m => exact hmodel ty m
      | forgn ty t p => exact hforgn ty t p
      | tuple ty xs =>
        refine htuple ty xs (fun x hx => ih x ?_)
        have hlt := List.sizeOf_lt_of_mem hx
        simp at hv
        omega
      | seq ty xs =>
        refine hseq ty xs (fun x hx => ih x ?_)
        have hlt := List.sizeOf_lt_of_mem hx
        simp at hv
        omega
      | map ty es =>
        refine hmap ty es (fun p hp => ?_)
        have hlt := List.sizeOf_lt_of_mem hp
        obtain ⟨k, v⟩ := p
        simp at hlt hv
        exact ⟨ih k (by omega), ih v (by omega)⟩
  exact fun v => H (sizeOf v) v le_rfl

theorem tyCloneList_eq_self {xs : List TyValue}
    (h : ∀ x ∈ xs, tyCloneValue x = x) : tyCloneList xs = xs := by
  induction xs with
  | nil => simp [tyCloneList]
  | cons x xs ih =>
    simp [tyCloneList, h x (by simp)]
    exact ih (fun y hy => h y (by simp [hy]))

theorem tyCloneEntries_eq_self {es : List (TyValue × TyValue)}
    (h : ∀ p ∈ es, tyCloneValue p.1 = p.1 ∧ tyCloneValue p.2 = p.2) :
    tyCloneEntries es = es := by
  induction es with
  | nil => simp [tyCloneEntries]
  | cons p es ih =>
    obtain ⟨k, v⟩ := p
    have hp := h (k, v) (by simp)
    simp [tyCloneEntries, hp.1, hp.2]
    exact ih (fun q hq => h q (by simp [hq]))

/-- Deep clone of stored values is extensionally the identity. -/
theorem tyCloneValue_eq_self : ∀ v, tyCloneValue v = v := by
  intro v
  induction v using tyValue_indOn with
  | hbool ty b => simp [tyCloneValue]
  | hevent ty n => simp [tyCloneValue]
  | hint ty n => simp [tyCloneValue]
  | hmachine ty n => simp [tyCloneValue]
  | hmodel ty n => simp [tyCloneValue]
  | hforgn ty t p => simp [tyCloneValue]
  | htuple ty xs ih => simp [tyCloneValue, tyCloneList_eq_self ih]
  | hseq ty xs ih => simp [tyCloneValue, tyCloneList_eq_self ih]
  | hmap ty es ih => simp [tyCloneValue, tyCloneEntries_eq_self ih]

theorem noTopAnyList_mem {xs : List TyValue} (h : noTopAnyList xs = true) :
    ∀ x ∈ xs, noTopAny x = true := by
  induction xs with
  | nil => simp
  | cons x xs ih =>
    simp only [noTopAnyList, Bool.and_eq_true] at h
    intro y hy
    rcases List.mem_cons.mp hy with rfl | hy2
    · exact h.1
    · exact ih h.2 y hy2

theorem noTopAnyEntries_mem {es : List (TyValue × TyValue)}
    (h : noTopAnyEntries es = true) :
    ∀ p ∈ es, noTopAny p.1 = true ∧ noTopAny p.2 = true := by
  induction es with
  | nil => simp
  | cons p es ih =>
    obtain ⟨k, v⟩ := p
    simp only [noTopAnyEntries, Bool.and_eq_true] at h
    intro q hq
    rcases List.mem_cons.mp hq with rfl | hq2
    · exact ⟨h.1.1, h.1.2⟩
    · exact ih h.2 q hq2

theorem noTopAnyList_set {xs : List TyValue} {x : TyValue} (i : Nat)
    (hxs : noTopAnyList xs = true) (hx : noTopAny x = true) :
    noTopAnyList (xs.set i x) = true := by
  induction xs generalizing i with
  | nil => simp [noTopAnyList]
  | cons y xs ih =>
    cases i with
    | zero => simp_all [noTopAnyList]
    | succ i =>
      simp only [noTopAnyList, Bool.and_eq_true] at hxs
      simp only [List.set, noTopAnyList, Bool.and_eq_true]
      exact ⟨hxs.1, ih i hxs.2⟩

theorem noTopAnyList_insert {xs : List TyValue} {x : TyValue} (i : Nat)
    (hxs : noTopAnyList xs = true) (hx : noTopAny x = true) :
    noTopAnyList (tySeqInsertList xs i x) = true := by
  induction xs generalizing i with
  | nil =>
    cases i <;> simp [tySeqInsertList, noTopAnyList, hx]
  | cons y xs ih =>
    cases i with
    | zero => simp_all [tySeqInsertList, noTopAnyList]
    | succ i =>
      simp only [noTopAnyList, Bool.and_eq_true] at hxs
      simp only [tySeqInsertList, noTopAnyList, Bool.and_eq_true]
      exact ⟨hxs.1, ih i hxs.2⟩

theorem noTopAnyEntries_update {es : List (TyValue × TyValue)} {k v : TyValue}
    (hes : noTopAnyEntries es = true) (hk : noTopAny k = true)
    (hv : noTopAny v = true) :
    noTopAnyEntries (tyMapUpdateEntries es k v) = true := by
  induction es with
  | nil => simp [tyMapUpdateEntries, noTopAnyEntries, hk, hv]
  | cons p es ih =>
    obtain ⟨k0, v0⟩ := p
    simp only [noTopAnyEntries, Bool.and_eq_true] at hes
    cases hx : PrtIsEqualValue (tyErase k) (tyErase k0) with
    | true =>
      simp only [tyMapUpdateEntries, hx, if_true, noTopAnyEntries, Bool.and_eq_true]
      exact ⟨⟨hes.1.1, hv⟩, hes.2⟩
    | false =>
      simp only [tyMapUpdateEntries, hx, Bool.false_eq_true, if_false,
        noTopAnyEntries, Bool.and_eq_true]
      exact ⟨hes.1, ih hes.2⟩

theorem noTopAny_setTopType {v : TyValue} {t : PrtType}
    (hv : noTopAny v = true) (ht : isAnyType t = false) :
    noTopAny (tySetTopType v t) = true := by
  cases v <;> simp_all [tySetTopType, noTopAny]

theorem tyMapLookup_mem {es : List (TyValue × TyValue)} {k w : TyValue}
    (h : tyMapLookup es k = some w) : ∃ p ∈ es, w = p.2 := by
  induction es with
  | nil => simp [tyMapLookup] at h
  | cons p es ih =>
    obtain ⟨k0, v0⟩ := p
    cases hx : PrtIsEqualValue (tyErase k) (tyErase k0) with
    | true =>
      simp only [tyMapLookup, hx, if_true, Option.some_inj] at h
      exact ⟨(k0, v0), by simp, h.symm⟩
    | false =>
      simp only [tyMapLookup, hx, Bool.false_eq_true, if_false] at h
      obtain ⟨q, hq, hw⟩ := ih h
      exact ⟨q, by simp [hq], hw⟩

theorem tyDefaultList_noTopAny {ts : List PrtType}
    (h : ∀ t ∈ ts, noTopAny (tyMkDefaultValue t) = true) :
    noTopAnyList (tyDefaultList ts) = true := by
  induction ts with
  | nil => simp [tyDefaultList, noTopAnyList]
  | cons t ts ih =>
    simp [tyDefaultList, noTopAnyList, h t (by simp)]
    exact ih (fun s hs => h s (by simp [hs]))

theorem tyDefaultNmdList_noTopAny {fields : List (String × PrtType)}
    (h : ∀ f ∈ fields, noTopAny (tyMkDefaultValue f.2) = true) :
    noTopAnyList (tyDefaultNmdList fields) = true := by
  induction fields with
  | nil => simp [tyDefaultNmdList, noTopAnyList]
  | cons f fs ih =>
    simp [tyDefaultNmdList, noTopAnyList, h f (by simp)]
    exact ih (fun g hg => h g (by simp [hg]))

theorem tyMkDefaultValue_noTopAny : ∀ t, noTopAny (tyMkDefaultValue t) = true := by
  intro t
  induction t using prtType_indOn with
  | hany => simp [tyMkDefaultValue, noTopAny, isAnyType]
  | hbool => simp [tyMkDefaultValue, noTopAny, isAnyType]
  | hevent => simp [tyMkDefaultValue, noTopAny, isAnyType]
  | hforgn tag => simp [tyMkDefaultValue, noTopAny, isAnyType]
  | hmachine => simp [tyMkDefaultValue, noTopAny, isAnyType]
  | hint => simp [tyMkDefaultValue, noTopAny, isAnyType]
  | hmap dom cod hd hc => simp [tyMkDefaultValue, noTopAny, isAnyType, noTopAnyEntries]
  | hmodel => simp [tyMkDefaultValue, noTopAny, isAnyType]
  | hnmd fields ih =>
    simp [tyMkDefaultValue, noTopAny, isAnyType]
    exact tyDefaultNmdList_noTopAny ih
  | hseq t ht => simp [tyMkDefaultValue, noTopAny, isAnyType, noTopAnyList]
  | htuple ts ih =>
    simp [tyMkDefaultValue, noTopAny, isAnyType]
    exact tyDefaultList_noTopAny ih

/-- C10: no operation ever produces a stored value whose top-level type
expression is `any`: the constructors (`MkDefaultValue`, `MkBoolValue`, …,
`MkForeignValue`), the container getters, `CloneValue` and `CastValue` all
yield values satisfying the invariant, and the container setters preserve
it; `any` can occur only strictly inside a stored type expression. -/
theorem noTopAny_invariant :
    (∀ t, noTopAny (tyMkDefaultValue t) = true) ∧
    (∀ b, noTopAny (tyMkBoolValue b) = true) ∧
    (∀ n, noTopAny (tyMkEventValue n) = true) ∧
    (∀ n, noTopAny (tyMkIntValue n) = true) ∧
    (∀ n, noTopAny (tyMkMachineValue n) = true) ∧
    (∀ n, noTopAny (tyMkModelValue n) = true) ∧
    noTopAny tyMkNullValue = true ∧
    (∀ tag p, noTopAny (tyMkForeignValue tag p) = true) ∧
    (∀ v, noTopAny v = true → noTopAny (tyCloneValue v) = true) ∧
    (∀ v t, noTopAny v = true → noTopAny (tyCastValue v t) = true) ∧
    (∀ v i w, noTopAny v = true → tyTupleGet v i = some w → noTopAny w = true) ∧
    (∀ v i w, noTopAny v = true → tySeqGet v i = some w → noTopAny w = true) ∧
    (∀ m k w, noTopAny m = true → tyMapGet m k = some w → noTopAny w = true) ∧
    (∀ v i x, noTopAny v = true → noTopAny x = true →
      noTopAny (tyTupleSet v i x) = true) ∧
    (∀ v i x, noTopAny v = true → noTopAny x = true →
      noTopAny (tySeqInsert v i x) = true) ∧
    (∀ m k v, noTopAny m = true → noTopAny k = true → noTopAny v = true →
      noTopAny (tyMapUpdate m k v) = true) := by
  refine ⟨tyMkDefaultValue_noTopAny,
    fun b => by simp [tyMkBoolValue, noTopAny, isAnyType],
    fun n => by simp [tyMkEventValue, noTopAny, isAnyType],
    fun n => by simp [tyMkIntValue, noTopAny, isAnyType],
    fun n => by simp [tyMkMachineValue, noTopAny, isAnyType],
    fun n => by simp [tyMkModelValue, noTopAny, isAnyType],
    by simp [tyMkNullValue, noTopAny, isAnyType],
    fun tag p => by simp [tyMkForeignValue, noTopAny, isAnyType],
    fun v hv => by rw [tyCloneValue_eq_self]; exact hv,
    ?_, ?_, ?_, ?_, ?_, ?_, ?_⟩
  · intro v t hv
    unfold tyCastValue
    cases ht : isAnyType t with
    | true => simp [tyCloneValue_eq_self, hv]
    | false => simp [tyCloneValue_eq_self, noTopAny_setTopType hv ht]
  · intro v i w hv hw
    cases v <;> first | (simp only [tyTupleGet] at hw; exact Option.noConfusion hw) | skip
    rename_i ty xs
    simp only [tyTupleGet] at hw
    obtain ⟨x, hx, hxw⟩ := Option.map_eq_some'.mp hw
    rw [tyCloneValue_eq_self] at hxw
    subst hxw
    simp only [noTopAny, Bool.and_eq_true] at hv
    exact noTopAnyList_mem hv.2 x (List.get?_mem hx)
  · intro v i w hv hw
    cases v <;> first | (simp only [tySeqGet] at hw; exact Option.noConfusion hw) | skip
    rename_i ty xs
    simp only [tySeqGet] at hw
    obtain ⟨x, hx, hxw⟩ := Option.map_eq_some'.mp hw
    rw [tyCloneValue_eq_self] at hxw
    subst hxw
    simp only [noTopAny, Bool.and_eq_true] at hv
    exact noTopAnyList_mem hv.2 x (List.get?_mem hx)
  · intro m k w hm hw
    cases m <;> first | (simp only [tyMapGet] at hw; exact Option.noConfusion hw) | skip
    rename_i ty es
    simp only [tyMapGet] at hw
    obtain ⟨x, hx, hxw⟩ := Option.map_eq_some'.mp hw
    rw [tyCloneValue_eq_self] at hxw
    subst hxw
    simp only [noTopAny, Bool.and_eq_true] at hm
    obtain ⟨p, hp, hxp⟩ := tyMapLookup_mem hx
    subst hxp
    exact (noTopAnyEntries_mem hm.2 p hp).2
  · intro v i x hv hx
    cases v <;> simp only [tyTupleSet] <;> try exact hv
    rename_i ty xs
    simp only [noTopAny, Bool.and_eq_true] at hv ⊢
    rw [tyCloneValue_eq_self]
    exact ⟨hv.1, noTopAnyList_set i hv.2 hx⟩
  · intro v i x hv hx
    cases v <;> simp only [tySeqInsert] <;> try exact hv
    rename_i ty xs
    simp only [noTopAny, Bool.and_eq_true] at hv ⊢
    rw [tyCloneValue_eq_self]
    exact ⟨hv.1, noTopAnyList_insert i hv.2 hx⟩
  · intro m k v hm hk hv
    cases m <;> simp only [tyMapUpdate] <;> try exact hm
    rename_i ty es
    simp only [noTopAny, Bool.and_eq_true] at hm ⊢
    rw [tyCloneValue_eq_self, tyCloneValue_eq_self]
    exact ⟨hm.1, noTopAnyEntries_update hm.2 hk hv⟩

/-- C10 witness: concrete instances discharging a conditional clause — the
clone of the cast of a concrete stored tuple keeps the invariant. -/
theorem noTopAny_invariant_w :
    noTopAny (tyMkBoolValue true) = true ∧
    noTopAny (tyCastValue (tyMkBoolValue true) PrtType.any) = true := by
  have h := noTopAny_invariant
  have h1 : noTopAny (tyMkBoolValue true) = true := h.2.1 true
  exact ⟨h1, h.2.2.2.2.2.2.2.2.2.1 (tyMkBoolValue true) PrtType.any h1⟩
